import Mathlib

set_option maxHeartbeats 1000000

namespace SP1

/-- The u32 modulus: pointer arithmetic in the executor wraps at 2 ^ 32. -/
def M32 : Nat := 4294967296

/-- Modelled from the spec: a memory read record (the value observed plus
timestamp metadata), produced by the Execution Context's read primitive, which
is not under src. -/
structure MemoryReadRecord where
  value : Nat
  timestamp : Nat
  deriving DecidableEq

/-- Modelled from the spec: a memory write record (the value before the
operation, the new value, timestamp metadata), produced by the write primitive,
which is not under src. -/
structure MemoryWriteRecord where
  prevValue : Nat
  value : Nat
  timestamp : Nat
  deriving DecidableEq

/-- Modelled from the spec: a local memory access entry, recording the first and
last touch of one word address within the current clock scope. -/
structure MemoryLocalEvent where
  addr : Nat
  initialValue : Nat
  initialTimestamp : Nat
  finalValue : Nat
  finalTimestamp : Nat
  deriving DecidableEq

/-- Modelled from the spec: the fragment of the global execution record that the
constructors touch, namely the global trace's forwarded local-access list. -/
structure ExecutionRecord where
  local_memory_access : List MemoryLocalEvent
  deriving DecidableEq

/-- Modelled from the spec: the interpreter runtime as seen through the
Execution Context: the ambient address-keyed local-access log (a hash map in the
source, modelled as an association list) and the global record. -/
structure Runtime where
  local_memory_access : List (Nat × MemoryLocalEvent)
  record : ExecutionRecord
  deriving DecidableEq

/-- Modelled from the spec: the per-syscall Execution Context: current clock,
shard and channel identifiers, the syscall lookup id, word-addressed memory,
and the runtime handle. -/
structure SyscallContext where
  clk : Nat
  current_shard : Nat
  current_channel : Nat
  syscall_lookup_id : Nat
  memory : Nat → Nat
  rt : Runtime

/-- Hash map get on the ambient local-access log. -/
def logLookup : List (Nat × MemoryLocalEvent) → Nat → Option MemoryLocalEvent
  | [], _ => none
  | (b, e) :: rest, a => if b = a then some e else logLookup rest a

/-- Hash map remove on the ambient local-access log. -/
def logErase : List (Nat × MemoryLocalEvent) → Nat → List (Nat × MemoryLocalEvent)
  | [], _ => []
  | (b, e) :: rest, a => if b = a then logErase rest a else (b, e) :: logErase rest a

/-- Modelled from the spec: register one touch of address `a` in the ambient
log: if an entry for `a` is already pending its final access is updated,
otherwise a fresh entry whose initial and final access are both this touch is
inserted. -/
def logTouch (log : List (Nat × MemoryLocalEvent)) (a prev new clk : Nat) :
    List (Nat × MemoryLocalEvent) :=
  match log with
  | [] => [(a, ⟨a, prev, clk, new, clk⟩)]
  | (b, e) :: rest =>
    if b = a then (b, { e with finalValue := new, finalTimestamp := clk }) :: rest
    else (b, e) :: logTouch rest a prev new clk

/-- Erase each address of a list from the ambient log, in order. -/
def eraseKeys : List Nat → List (Nat × MemoryLocalEvent) → List (Nat × MemoryLocalEvent)
  | [], log => log
  | a :: rest, log => eraseKeys rest (logErase log a)

/-- The pending entries a span of addresses would pull out of the ambient log,
in span order: the closed form of the stale-entry forwarding loops. -/
def staleOf : List Nat → List (Nat × MemoryLocalEvent) → List MemoryLocalEvent
  | [], _ => []
  | a :: rest, log =>
    match logLookup log a with
    | none => staleOf rest log
    | some e => e :: staleOf rest (logErase log a)

/-- Pointwise update of the word-addressed memory. -/
def memUpdate (m : Nat → Nat) (a w : Nat) : Nat → Nat :=
  fun b => if b = a then w else m b

/-- Sequential writes of address-word pairs into memory. -/
def memWriteList : (Nat → Nat) → List (Nat × Nat) → (Nat → Nat)
  | m, [] => m
  | m, (a, w) :: rest => memWriteList (memUpdate m a w) rest

/-- Modelled from the spec: the Execution Context's single-word read primitive:
returns a read record carrying the observed value and the current clock, and
registers the touch in the ambient local-access log. -/
def mrWord (ctx : SyscallContext) (a : Nat) : MemoryReadRecord × SyscallContext :=
  let v := ctx.memory a
  (⟨v, ctx.clk⟩,
   { ctx with rt := { ctx.rt with
       local_memory_access := logTouch ctx.rt.local_memory_access a v v ctx.clk } })

/-- Read a list of addresses in order, collecting the records and the values. -/
def mrAddrs : SyscallContext → List Nat → (List MemoryReadRecord × List Nat) × SyscallContext
  | ctx, [] => (([], []), ctx)
  | ctx, a :: rest =>
    let p := mrWord ctx a
    let q := mrAddrs p.2 rest
    ((p.1 :: q.1.1, p.1.value :: q.1.2), q.2)

/-- Modelled from the spec: the Execution Context's single-word write primitive:
returns a write record carrying the previous value, the new value and the
current clock, updates memory, and registers the touch in the ambient log. -/
def mwWord (ctx : SyscallContext) (a w : Nat) : MemoryWriteRecord × SyscallContext :=
  let prev := ctx.memory a
  (⟨prev, w, ctx.clk⟩,
   { ctx with
     memory := memUpdate ctx.memory a w,
     rt := { ctx.rt with
       local_memory_access := logTouch ctx.rt.local_memory_access a prev w ctx.clk } })

/-- Write a list of address-word pairs in order, collecting the records. -/
def mwAddrs : SyscallContext → List (Nat × Nat) → List MemoryWriteRecord × SyscallContext
  | ctx, [] => ([], ctx)
  | ctx, (a, w) :: rest =>
    let p := mwWord ctx a w
    let q := mwAddrs p.2 rest
    (p.1 :: q.1, q.2)

/-- The word addresses of a span of `n` words starting at `ptr`, with u32
wrap-around as in the source's `ptr + i as u32 * 4`. -/
def spanAddrs (ptr n : Nat) : List Nat :=
  (List.range n).map (fun i => (ptr + 4 * i) % M32)

/-- Modelled from the spec: `mr_slice`, a full ordered read of `n` words
starting at `ptr`, producing one read record per word. -/
def mrSlice (ctx : SyscallContext) (ptr n : Nat) :
    (List MemoryReadRecord × List Nat) × SyscallContext :=
  mrAddrs ctx (spanAddrs ptr n)

/-- Modelled from the spec: `mw_slice`, a full ordered write of the given words
starting at `ptr`, producing one write record per word. -/
def mwSlice (ctx : SyscallContext) (ptr : Nat) (words : List Nat) :
    List MemoryWriteRecord × SyscallContext :=
  mwAddrs ctx ((spanAddrs ptr words.length).zip words)

/-- Modelled from the spec: `slice_unsafe`, an unrecorded read of a span of
words: it produces no memory records and no local-access log entries. -/
def sliceUnsafe (ctx : SyscallContext) (ptr n : Nat) : List Nat :=
  (spanAddrs ptr n).map ctx.memory

/-- The stale-entry forwarding loop of the constructors: for each address of the
span, remove any pending ambient entry for it and push it onto the global
trace's forwarded list. -/
def forwardStale : SyscallContext → List Nat → SyscallContext
  | ctx, [] => ctx
  | ctx, a :: rest =>
    let ctx1 :=
      match logLookup ctx.rt.local_memory_access a with
      | none => ctx
      | some e =>
        { ctx with rt :=
          { local_memory_access := logErase ctx.rt.local_memory_access a,
            record := ⟨ctx.rt.record.local_memory_access ++ [e]⟩ } }
    forwardStale ctx1 rest

/-- The drain loop of the constructors: remove the pending ambient entry for
each address of the span, which must exist, and collect the entries in span
order; a missing entry is the fatal expect and yields `none`. -/
def drainSpan : SyscallContext → List Nat → Option (List MemoryLocalEvent × SyscallContext)
  | ctx, [] => some ([], ctx)
  | ctx, a :: rest =>
    match logLookup ctx.rt.local_memory_access a with
    | none => none
    | some e =>
      let ctx1 := { ctx with rt := { ctx.rt with
        local_memory_access := logErase ctx.rt.local_memory_access a } }
      match drainSpan ctx1 rest with
      | none => none
      | some (es, ctx2) => some (e :: es, ctx2)

/-- Reassemble a natural number from its little-endian bytes. -/
def natFromBytesLE : List Nat → Nat
  | [] => 0
  | b :: rest => b + 256 * natFromBytesLE rest

/-- Fuel-counted minimal little-endian byte expansion of a natural number; the
fuel is always called with at least the number itself. -/
def toBytesLEAux : Nat → Nat → List Nat
  | 0, _ => []
  | fuel + 1, n => if n = 0 then [] else n % 256 :: toBytesLEAux fuel (n / 256)

/-- Modelled from the spec: big-integer `to_bytes_le`, the minimal little-endian
byte serialization of a natural number (empty for zero). -/
def natToBytesLE (n : Nat) : List Nat := toBytesLEAux n n

/-- The four little-endian bytes of one 32-bit word. -/
def wordToBytesLE (w : Nat) : List Nat :=
  [w % 256, w / 256 % 256, w / 65536 % 256, w / 16777216 % 256]

/-- Modelled from the spec: `words_to_bytes_le_vec`, flattening each word into
its four little-endian bytes. -/
def words_to_bytes_le_vec (ws : List Nat) : List Nat :=
  ws.flatMap wordToBytesLE

/-- Modelled from the spec: `bytes_to_words_le_vec`, packing each exact chunk of
four little-endian bytes into one word. -/
def bytes_to_words_le_vec : List Nat → List Nat
  | b0 :: b1 :: b2 :: b3 :: rest =>
    (b0 + 256 * b1 + 65536 * b2 + 16777216 * b3) :: bytes_to_words_le_vec rest
  | _ => []

/-- Rust `Vec::resize`: truncate or pad with `pad` to exactly `n` elements. -/
def listResize (l : List Nat) (n : Nat) (pad : Nat) : List Nat :=
  l.take n ++ List.replicate (n - l.length) pad

/-- Modelled from the spec: the curve abstraction: the fixed limb count (bytes
per base-field element) and the pure curve arithmetic the constructors consume;
an affine point is a pair of coordinates, and the decompression function maps
big-endian x bytes and a sign bit to an affine point. -/
structure EllipticCurve where
  numLimbs : Nat
  ecAdd : Nat × Nat → Nat × Nat → Nat × Nat
  ecDouble : Nat × Nat → Nat × Nat
  decompressFn : List Nat → Nat → Nat × Nat

/-- The number of words of one curve point: two field elements of `numLimbs`
bytes each, four bytes per word. -/
def EllipticCurve.numWords (E : EllipticCurve) : Nat := E.numLimbs / 2

/-- The number of words of one field element. -/
def EllipticCurve.numWordsFieldElement (E : EllipticCurve) : Nat := E.numLimbs / 4

/-- Modelled from the spec: `AffinePoint::from_words_le`: the first half of the
little-endian bytes of the words is the x coordinate, the second half the y
coordinate. -/
def fromWordsLE (numLimbs : Nat) (ws : List Nat) : Nat × Nat :=
  let bytes := words_to_bytes_le_vec ws
  (natFromBytesLE (bytes.take numLimbs), natFromBytesLE (bytes.drop numLimbs))

/-- Modelled from the spec: `AffinePoint::to_words_le`: each coordinate is
serialized little-endian, zero-padded to `numLimbs` bytes, and the two byte
halves are packed into words. -/
def toWordsLE (numLimbs : Nat) (P : Nat × Nat) : List Nat :=
  bytes_to_words_le_vec
    (listResize (natToBytesLE P.1) numLimbs 0 ++ listResize (natToBytesLE P.2) numLimbs 0)

/-- Elliptic Curve Add Event, as in the source. -/
structure EllipticCurveAddEvent where
  lookup_id : Nat
  shard : Nat
  channel : Nat
  clk : Nat
  p_ptr : Nat
  p : List Nat
  q_ptr : Nat
  q : List Nat
  p_memory_records : List MemoryWriteRecord
  q_memory_records : List MemoryReadRecord
  local_mem_access : List MemoryLocalEvent
  deriving DecidableEq

/-- Elliptic Curve Double Event, as in the source. -/
structure EllipticCurveDoubleEvent where
  lookup_id : Nat
  shard : Nat
  channel : Nat
  clk : Nat
  p_ptr : Nat
  p : List Nat
  p_memory_records : List MemoryWriteRecord
  local_mem_access : List MemoryLocalEvent
  deriving DecidableEq

/-- Elliptic Curve Point Decompress Event, as in the source. -/
structure EllipticCurveDecompressEvent where
  lookup_id : Nat
  shard : Nat
  channel : Nat
  clk : Nat
  ptr : Nat
  sign_bit : Bool
  x_bytes : List Nat
  decompressed_y_bytes : List Nat
  x_memory_records : List MemoryReadRecord
  y_memory_records : List MemoryWriteRecord
  local_mem_access : List MemoryLocalEvent
  deriving DecidableEq

/-- The elliptic curve add event constructor of the source: checks alignment of
both pointers, reads P unrecorded, forwards stale entries for the Q span, reads
Q with records, drains the fresh Q entries, bumps the clock by one, computes
P + Q, forwards stale entries for the P span, writes the result with records,
drains the fresh P entries, and assembles the event; a fatal panic is `none`. -/
def create_ec_add_event (E : EllipticCurve) (rt : SyscallContext) (arg1 arg2 : Nat) :
    Option (EllipticCurveAddEvent × SyscallContext) :=
  let start_clk := rt.clk
  let p_ptr := arg1
  if p_ptr % 4 ≠ 0 then none else
  let q_ptr := arg2
  if q_ptr % 4 ≠ 0 then none else
  let num_words := E.numWords
  let p := sliceUnsafe rt p_ptr num_words
  let rt1 := forwardStale rt (spanAddrs q_ptr num_words)
  let mrRes := mrSlice rt1 q_ptr num_words
  let q_memory_records := mrRes.1.1
  let q := mrRes.1.2
  match drainSpan mrRes.2 (spanAddrs q_ptr num_words) with
  | none => none
  | some (qAccess, rt3) =>
    let rt4 := { rt3 with clk := rt3.clk + 1 }
    let p_affine := fromWordsLE E.numLimbs p
    let q_affine := fromWordsLE E.numLimbs q
    let result_affine := E.ecAdd p_affine q_affine
    let result_words := toWordsLE E.numLimbs result_affine
    let rt5 := forwardStale rt4 (spanAddrs p_ptr result_words.length)
    let mwRes := mwSlice rt5 p_ptr result_words
    match drainSpan mwRes.2 (spanAddrs p_ptr result_words.length) with
    | none => none
    | some (pAccess, rt7) =>
      some ({ lookup_id := rt.syscall_lookup_id, shard := rt.current_shard,
              channel := rt.current_channel, clk := start_clk, p_ptr := p_ptr, p := p,
              q_ptr := q_ptr, q := q, p_memory_records := mwRes.1,
              q_memory_records := q_memory_records,
              local_mem_access := qAccess ++ pAccess }, rt7)

/-- The elliptic curve double event constructor of the source: checks alignment,
reads P unrecorded, computes the doubling, forwards stale entries for the P
span, writes the result with records, drains the fresh entries, and assembles
the event; a fatal panic is `none`. -/
def create_ec_double_event (E : EllipticCurve) (rt : SyscallContext) (arg1 : Nat) (_arg2 : Nat) :
    Option (EllipticCurveDoubleEvent × SyscallContext) :=
  let start_clk := rt.clk
  let p_ptr := arg1
  if p_ptr % 4 ≠ 0 then none else
  let num_words := E.numWords
  let p := sliceUnsafe rt p_ptr num_words
  let p_affine := fromWordsLE E.numLimbs p
  let result_affine := E.ecDouble p_affine
  let result_words := toWordsLE E.numLimbs result_affine
  let rt1 := forwardStale rt (spanAddrs p_ptr result_words.length)
  let mwRes := mwSlice rt1 p_ptr result_words
  match drainSpan mwRes.2 (spanAddrs p_ptr result_words.length) with
  | none => none
  | some (acc, rt2) =>
    some ({ lookup_id := rt.syscall_lookup_id, shard := rt.current_shard,
            channel := rt.current_channel, clk := start_clk, p_ptr := p_ptr, p := p,
            p_memory_records := mwRes.1, local_mem_access := acc }, rt2)

/-- The elliptic curve decompress event constructor of the source: checks
alignment of the slice pointer and the sign bit, forwards stale entries for the
x span, reads the x words with records, drains the fresh x entries, reverses
the little-endian x bytes into big-endian form, applies the curve's
decompression function, serializes y little-endian zero-padded to the limb
width, forwards stale entries for the y span, writes the y words with records,
drains the fresh y entries, and assembles the event; a fatal panic is `none`. -/
def create_ec_decompress_event (E : EllipticCurve) (rt : SyscallContext)
    (slice_ptr sign_bit : Nat) :
    Option (EllipticCurveDecompressEvent × SyscallContext) :=
  let start_clk := rt.clk
  if slice_ptr % 4 ≠ 0 then none else
  if sign_bit > 1 then none else
  let num_limbs := E.numLimbs
  let num_words_field_element := num_limbs / 4
  let xAddrs := spanAddrs (slice_ptr + num_limbs) num_words_field_element
  let rt1 := forwardStale rt xAddrs
  let mrRes := mrSlice rt1 (slice_ptr + num_limbs) num_words_field_element
  match drainSpan mrRes.2 xAddrs with
  | none => none
  | some (xAccess, rt2) =>
    let x_bytes := words_to_bytes_le_vec mrRes.1.2
    let x_bytes_be := x_bytes.reverse
    let computed_point := E.decompressFn x_bytes_be sign_bit
    let decompressed_y_bytes := listResize (natToBytesLE computed_point.2) num_limbs 0
    let y_words := bytes_to_words_le_vec decompressed_y_bytes
    let yAddrs := spanAddrs slice_ptr y_words.length
    let rt3 := forwardStale rt2 yAddrs
    let mwRes := mwSlice rt3 slice_ptr y_words
    match drainSpan mwRes.2 yAddrs with
    | none => none
    | some (yAccess, rt4) =>
      some ({ lookup_id := rt.syscall_lookup_id, shard := rt.current_shard,
              channel := rt.current_channel, clk := start_clk, ptr := slice_ptr,
              sign_bit := sign_bit ≠ 0, x_bytes := x_bytes,
              decompressed_y_bytes := decompressed_y_bytes,
              x_memory_records := mrRes.1.1, y_memory_records := mwRes.1,
              local_mem_access := xAccess ++ yAccess }, rt4)

/-- The read records a span produces: one per address, carrying the observed
value and the clock. -/
def readRecordsOf (m : Nat → Nat) (clk : Nat) (addrs : List Nat) : List MemoryReadRecord :=
  addrs.map (fun a => ⟨m a, clk⟩)

/-- The fresh local-access log entries a recorded read of a span creates. -/
def readEntriesOf (m : Nat → Nat) (clk : Nat) (addrs : List Nat) :
    List (Nat × MemoryLocalEvent) :=
  addrs.map (fun a => (a, ⟨a, m a, clk, m a, clk⟩))

/-- The write records a span of address-word pairs produces. -/
def writeRecordsOf (m : Nat → Nat) (clk : Nat) (pairs : List (Nat × Nat)) :
    List MemoryWriteRecord :=
  pairs.map (fun aw => ⟨m aw.1, aw.2, clk⟩)

/-- The fresh local-access log entries a recorded write of a span creates. -/
def writeEntriesOf (m : Nat → Nat) (clk : Nat) (pairs : List (Nat × Nat)) :
    List (Nat × MemoryLocalEvent) :=
  pairs.map (fun aw => (aw.1, ⟨aw.1, m aw.1, clk, aw.2, clk⟩))

/-- The result words of an add call: the stored P and Q spans decoded, added by
the curve's group law, and re-encoded. -/
def addResultWords (E : EllipticCurve) (m : Nat → Nat) (pp qq : Nat) : List Nat :=
  toWordsLE E.numLimbs
    (E.ecAdd (fromWordsLE E.numLimbs ((spanAddrs pp E.numWords).map m))
      (fromWordsLE E.numLimbs ((spanAddrs qq E.numWords).map m)))

/-- The event an aligned add call returns, in closed form. -/
def addSpecEvent (E : EllipticCurve) (c : SyscallContext) (pp qq : Nat) :
    EllipticCurveAddEvent :=
  { lookup_id := c.syscall_lookup_id, shard := c.current_shard,
    channel := c.current_channel, clk := c.clk, p_ptr := pp,
    p := (spanAddrs pp E.numWords).map c.memory, q_ptr := qq,
    q := (spanAddrs qq E.numWords).map c.memory,
    p_memory_records := writeRecordsOf c.memory (c.clk + 1)
      ((spanAddrs pp E.numWords).zip (addResultWords E c.memory pp qq)),
    q_memory_records := readRecordsOf c.memory c.clk (spanAddrs qq E.numWords),
    local_mem_access :=
      (readEntriesOf c.memory c.clk (spanAddrs qq E.numWords)).map Prod.snd ++
      (writeEntriesOf c.memory (c.clk + 1)
        ((spanAddrs pp E.numWords).zip (addResultWords E c.memory pp qq))).map Prod.snd }

/-- The Execution Context an aligned add call leaves behind, in closed form. -/
def addSpecCtx (E : EllipticCurve) (c : SyscallContext) (pp qq : Nat) : SyscallContext :=
  { c with
    clk := c.clk + 1,
    memory := memWriteList c.memory
      ((spanAddrs pp E.numWords).zip (addResultWords E c.memory pp qq)),
    rt :=
      { local_memory_access := eraseKeys (spanAddrs pp E.numWords)
          (eraseKeys (spanAddrs qq E.numWords) c.rt.local_memory_access),
        record := ⟨c.rt.record.local_memory_access ++
          staleOf (spanAddrs qq E.numWords) c.rt.local_memory_access ++
          staleOf (spanAddrs pp E.numWords)
            (eraseKeys (spanAddrs qq E.numWords) c.rt.local_memory_access)⟩ } }

/-- The result words of a double call. -/
def doubleResultWords (E : EllipticCurve) (m : Nat → Nat) (pp : Nat) : List Nat :=
  toWordsLE E.numLimbs (E.ecDouble (fromWordsLE E.numLimbs ((spanAddrs pp E.numWords).map m)))

/-- The event an aligned double call returns, in closed form. -/
def doubleSpecEvent (E : EllipticCurve) (c : SyscallContext) (pp : Nat) :
    EllipticCurveDoubleEvent :=
  { lookup_id := c.syscall_lookup_id, shard := c.current_shard,
    channel := c.current_channel, clk := c.clk, p_ptr := pp,
    p := (spanAddrs pp E.numWords).map c.memory,
    p_memory_records := writeRecordsOf c.memory c.clk
      ((spanAddrs pp E.numWords).zip (doubleResultWords E c.memory pp)),
    local_mem_access :=
      (writeEntriesOf c.memory c.clk
        ((spanAddrs pp E.numWords).zip (doubleResultWords E c.memory pp))).map Prod.snd }

/-- The Execution Context an aligned double call leaves behind, in closed form. -/
def doubleSpecCtx (E : EllipticCurve) (c : SyscallContext) (pp : Nat) : SyscallContext :=
  { c with
    memory := memWriteList c.memory
      ((spanAddrs pp E.numWords).zip (doubleResultWords E c.memory pp)),
    rt :=
      { local_memory_access := eraseKeys (spanAddrs pp E.numWords) c.rt.local_memory_access,
        record := ⟨c.rt.record.local_memory_access ++
          staleOf (spanAddrs pp E.numWords) c.rt.local_memory_access⟩ } }

/-- The little-endian x bytes a decompress call reads. -/
def decompXBytes (E : EllipticCurve) (m : Nat → Nat) (sp : Nat) : List Nat :=
  words_to_bytes_le_vec ((spanAddrs (sp + E.numLimbs) E.numWordsFieldElement).map m)

/-- The zero-padded little-endian y bytes a decompress call computes. -/
def decompYBytes (E : EllipticCurve) (m : Nat → Nat) (sp sb : Nat) : List Nat :=
  listResize (natToBytesLE ((E.decompressFn (decompXBytes E m sp).reverse sb).2)) E.numLimbs 0

/-- The y words a decompress call writes. -/
def decompYWords (E : EllipticCurve) (m : Nat → Nat) (sp sb : Nat) : List Nat :=
  bytes_to_words_le_vec (decompYBytes E m sp sb)

/-- The event a valid decompress call returns, in closed form. -/
def decompSpecEvent (E : EllipticCurve) (c : SyscallContext) (sp sb : Nat) :
    EllipticCurveDecompressEvent :=
  { lookup_id := c.syscall_lookup_id, shard := c.current_shard,
    channel := c.current_channel, clk := c.clk, ptr := sp, sign_bit := sb ≠ 0,
    x_bytes := decompXBytes E c.memory sp,
    decompressed_y_bytes := decompYBytes E c.memory sp sb,
    x_memory_records := readRecordsOf c.memory c.clk
      (spanAddrs (sp + E.numLimbs) E.numWordsFieldElement),
    y_memory_records := writeRecordsOf c.memory c.clk
      ((spanAddrs sp E.numWordsFieldElement).zip (decompYWords E c.memory sp sb)),
    local_mem_access :=
      (readEntriesOf c.memory c.clk
        (spanAddrs (sp + E.numLimbs) E.numWordsFieldElement)).map Prod.snd ++
      (writeEntriesOf c.memory c.clk
        ((spanAddrs sp E.numWordsFieldElement).zip (decompYWords E c.memory sp sb))).map Prod.snd }

/-- The Execution Context a valid decompress call leaves behind, in closed
form. -/
def decompSpecCtx (E : EllipticCurve) (c : SyscallContext) (sp sb : Nat) : SyscallContext :=
  { c with
    memory := memWriteList c.memory
      ((spanAddrs sp E.numWordsFieldElement).zip (decompYWords E c.memory sp sb)),
    rt :=
      { local_memory_access := eraseKeys (spanAddrs sp E.numWordsFieldElement)
          (eraseKeys (spanAddrs (sp + E.numLimbs) E.numWordsFieldElement)
            c.rt.local_memory_access),
        record := ⟨c.rt.record.local_memory_access ++
          staleOf (spanAddrs (sp + E.numLimbs) E.numWordsFieldElement)
            c.rt.local_memory_access ++
          staleOf (spanAddrs sp E.numWordsFieldElement)
            (eraseKeys (spanAddrs (sp + E.numLimbs) E.numWordsFieldElement)
              c.rt.local_memory_access)⟩ } }

/-- A two-word toy instance of the curve abstraction, used to evaluate the
constructors on concrete inputs. -/
def toyCurve : EllipticCurve where
  numLimbs := 4
  ecAdd := fun P Q => (P.1 + Q.1 + 1, 0)
  ecDouble := fun P => (P.1 + 2, 0)
  decompressFn := fun _ s => (0, s)

/-- A concrete Execution Context with zeroed memory and empty logs. -/
def toyCtx : SyscallContext where
  clk := 10
  current_shard := 1
  current_channel := 2
  syscall_lookup_id := 3
  memory := fun _ => 0
  rt := { local_memory_access := [], record := ⟨[]⟩ }

/-- Erasing a key makes its lookup fail. -/
theorem logLookup_logErase_self (log : List (Nat × MemoryLocalEvent)) (a : Nat) :
    logLookup (logErase log a) a = none := by
  induction log with
  | nil => rfl
  | cons p rest ih =>
    obtain ⟨b, e⟩ := p
    by_cases hb : b = a
    · simp [logErase, hb, ih]
    · simp [logErase, logLookup, hb, ih]

/-- Erasing a key that is not present leaves the log unchanged. -/
theorem logErase_of_lookup_none (log : List (Nat × MemoryLocalEvent)) (a : Nat)
    (h : logLookup log a = none) : logErase log a = log := by
  induction log with
  | nil => rfl
  | cons p rest ih =>
    obtain ⟨b, e⟩ := p
    by_cases hb : b = a
    · simp [logLookup, hb] at h
    · simp [logLookup, hb] at h
      simp [logErase, hb, ih h]

/-- Erasing distributes over append. -/
theorem logErase_append (l1 l2 : List (Nat × MemoryLocalEvent)) (a : Nat) :
    logErase (l1 ++ l2) a = logErase l1 a ++ logErase l2 a := by
  induction l1 with
  | nil => rfl
  | cons p rest ih =>
    obtain ⟨b, e⟩ := p
    by_cases hb : b = a
    · simp [logErase, hb, ih]
    · simp [logErase, hb, ih]

/-- Erasing a key none of the pairs carries leaves the log unchanged. -/
theorem logErase_of_forall_ne (log : List (Nat × MemoryLocalEvent)) (a : Nat)
    (h : ∀ p ∈ log, p.1 ≠ a) : logErase log a = log := by
  induction log with
  | nil => rfl
  | cons p rest ih =>
    obtain ⟨b, e⟩ := p
    have hb : b ≠ a := h (b, e) (by simp)
    simp [logErase, hb]
    exact ih (fun q hq => h q (by simp [hq]))

/-- Lookup over an append skips a prefix where the key is absent. -/
theorem logLookup_append_of_none (l1 l2 : List (Nat × MemoryLocalEvent)) (a : Nat)
    (h : logLookup l1 a = none) : logLookup (l1 ++ l2) a = logLookup l2 a := by
  induction l1 with
  | nil => rfl
  | cons p rest ih =>
    obtain ⟨b, e⟩ := p
    by_cases hb : b = a
    · simp [logLookup, hb] at h
    · simp [logLookup, hb] at h ⊢
      exact ih h

/-- Lookup failure is preserved by erasing any key. -/
theorem logLookup_logErase_of_none (log : List (Nat × MemoryLocalEvent)) (a b : Nat)
    (h : logLookup log a = none) : logLookup (logErase log b) a = none := by
  induction log with
  | nil => rfl
  | cons p rest ih =>
    obtain ⟨c, e⟩ := p
    by_cases hc : c = a
    · simp [logLookup, hc] at h
    · simp [logLookup, hc] at h
      by_cases hcb : c = b
      · simp [logErase, hcb, ih h]
      · simp [logErase, logLookup, hcb, hc, ih h]

/-- Touching an absent key appends a fresh entry at the end of the log. -/
theorem logTouch_of_lookup_none (log : List (Nat × MemoryLocalEvent)) (a prev new clk : Nat)
    (h : logLookup log a = none) :
    logTouch log a prev new clk = log ++ [(a, ⟨a, prev, clk, new, clk⟩)] := by
  induction log with
  | nil => rfl
  | cons p rest ih =>
    obtain ⟨b, e⟩ := p
    by_cases hb : b = a
    · simp [logLookup, hb] at h
    · simp [logLookup, hb] at h
      simp [logTouch, hb, ih h]

/-- Lookup failure is preserved by erasing a list of keys. -/
theorem eraseKeys_preserves_none (addrs : List Nat) (log : List (Nat × MemoryLocalEvent))
    (a : Nat) (h : logLookup log a = none) : logLookup (eraseKeys addrs log) a = none := by
  induction addrs generalizing log with
  | nil => exact h
  | cons b rest ih => exact ih _ (logLookup_logErase_of_none _ _ _ h)

/-- After erasing a list of keys, each of them is absent. -/
theorem eraseKeys_lookup_of_mem (addrs : List Nat) (log : List (Nat × MemoryLocalEvent))
    (a : Nat) (h : a ∈ addrs) : logLookup (eraseKeys addrs log) a = none := by
  induction addrs generalizing log with
  | nil => cases h
  | cons b rest ih =>
    rcases List.mem_cons.mp h with hb | hrest
    · subst hb
      simp only [eraseKeys]
      exact eraseKeys_preserves_none _ _ _ (logLookup_logErase_self _ _)
    · exact ih _ hrest

/-- A span has one address per word. -/
theorem spanAddrs_length (ptr n : Nat) : (spanAddrs ptr n).length = n := by
  simp [spanAddrs]

/-- The addresses of a span are pairwise distinct as long as the span does not
cover the whole 32-bit address space. -/
theorem spanAddrs_nodup (ptr n : Nat) (h : 4 * n ≤ M32) : (spanAddrs ptr n).Nodup := by
  refine List.Nodup.map_on ?_ (List.nodup_range n)
  intro i hi j hj hij
  simp only [List.mem_range] at hi hj
  have h2 : (4 * i) % M32 = (4 * j) % M32 := Nat.ModEq.add_left_cancel' ptr hij
  have hM : M32 = 4294967296 := rfl
  rw [Nat.mod_eq_of_lt (by omega), Nat.mod_eq_of_lt (by omega)] at h2
  omega

/-- Closed form of the stale-entry forwarding loop: the span's keys are erased
from the ambient log and the pending entries for them are appended, in span
order, to the global trace's forwarded list; nothing else changes. -/
theorem forwardStale_eq (addrs : List Nat) (ctx : SyscallContext) :
    forwardStale ctx addrs =
      { ctx with rt :=
        { local_memory_access := eraseKeys addrs ctx.rt.local_memory_access,
          record := ⟨ctx.rt.record.local_memory_access ++
            staleOf addrs ctx.rt.local_memory_access⟩ } } := by
  induction addrs generalizing ctx with
  | nil =>
    obtain ⟨c, s, h, l, m, ⟨log, ⟨recl⟩⟩⟩ := ctx
    simp [forwardStale, eraseKeys, staleOf]
  | cons a rest ih =>
    obtain ⟨c, s, h, l, m, ⟨log, ⟨recl⟩⟩⟩ := ctx
    cases hl : logLookup log a with
    | none =>
      simp only [forwardStale, hl]
      rw [ih]
      simp [eraseKeys, staleOf, hl, logErase_of_lookup_none _ _ hl]
    | some e =>
      simp only [forwardStale, hl]
      rw [ih]
      simp [eraseKeys, staleOf, hl]

/-- Closed form of a recorded read over distinct fresh addresses: one record and
one value per address at the current clock, and one fresh log entry per address
appended to the ambient log; memory, clock and the global record are
unchanged. -/
theorem mrAddrs_eq (addrs : List Nat) (ctx : SyscallContext)
    (hnd : addrs.Nodup)
    (habs : ∀ a ∈ addrs, logLookup ctx.rt.local_memory_access a = none) :
    mrAddrs ctx addrs =
      ((readRecordsOf ctx.memory ctx.clk addrs, addrs.map ctx.memory),
       { ctx with rt := { ctx.rt with
           local_memory_access := ctx.rt.local_memory_access ++
             readEntriesOf ctx.memory ctx.clk addrs } }) := by
  induction addrs generalizing ctx with
  | nil =>
    obtain ⟨c, s, h, l, m, ⟨log, ⟨recl⟩⟩⟩ := ctx
    simp [mrAddrs, readRecordsOf, readEntriesOf]
  | cons a rest ih =>
    obtain ⟨hmem, hnd'⟩ := List.nodup_cons.mp hnd
    obtain ⟨c, s, h, l, m, ⟨log, ⟨recl⟩⟩⟩ := ctx
    have ha : logLookup log a = none := habs a (by simp)
    simp only [mrAddrs, mrWord]
    rw [logTouch_of_lookup_none _ _ _ _ _ ha]
    rw [ih _ hnd' ?_]
    · simp [readRecordsOf, readEntriesOf]
    · intro b hb
      have hbne : a ≠ b := fun hab => hmem (hab ▸ hb)
      have hbnone : logLookup log b = none := habs b (by simp [hb])
      rw [logLookup_append_of_none _ _ _ hbnone]
      simp [logLookup, hbne]

/-- Closed form of a recorded write of distinct fresh addresses: one record per
pair carrying the previous value, the new word and the current clock, the words
written into memory in order, and one fresh log entry per pair appended to the
ambient log; the clock and the global record are unchanged. -/
theorem mwAddrs_eq (pairs : List (Nat × Nat)) (ctx : SyscallContext)
    (hnd : (pairs.map Prod.fst).Nodup)
    (habs : ∀ a ∈ pairs.map Prod.fst, logLookup ctx.rt.local_memory_access a = none) :
    mwAddrs ctx pairs =
      (writeRecordsOf ctx.memory ctx.clk pairs,
       { ctx with
         memory := memWriteList ctx.memory pairs,
         rt := { ctx.rt with
           local_memory_access := ctx.rt.local_memory_access ++
             writeEntriesOf ctx.memory ctx.clk pairs } }) := by
  induction pairs generalizing ctx with
  | nil =>
    obtain ⟨c, s, h, l, m, ⟨log, ⟨recl⟩⟩⟩ := ctx
    simp [mwAddrs, writeRecordsOf, writeEntriesOf, memWriteList]
  | cons aw rest ih =>
    obtain ⟨a, w⟩ := aw
    simp only [List.map_cons] at hnd
    obtain ⟨hmem, hnd'⟩ := List.nodup_cons.mp hnd
    obtain ⟨c, s, h, l, m, ⟨log, ⟨recl⟩⟩⟩ := ctx
    have ha : logLookup log a = none := habs a (by simp)
    have hne : ∀ aw2 ∈ rest, (aw2 : Nat × Nat).1 ≠ a := by
      intro aw2 haw2 heq
      exact hmem (heq ▸ List.mem_map_of_mem Prod.fst haw2)
    have hrec : writeRecordsOf (memUpdate m a w) c rest = writeRecordsOf m c rest :=
      List.map_congr_left (fun aw2 haw2 => by simp [memUpdate, hne aw2 haw2])
    have hent : writeEntriesOf (memUpdate m a w) c rest = writeEntriesOf m c rest :=
      List.map_congr_left (fun aw2 haw2 => by simp [memUpdate, hne aw2 haw2])
    simp only [mwAddrs, mwWord]
    rw [logTouch_of_lookup_none _ _ _ _ _ ha]
    rw [ih _ hnd' ?_]
    · dsimp only
      rw [hrec, hent]
      simp [writeRecordsOf, writeEntriesOf, memWriteList]
    · intro b hb
      have hbne : a ≠ b := by
        intro hab
        exact hmem (hab ▸ hb)
      have hbnone : logLookup log b = none := habs b (by simp [hb])
      rw [logLookup_append_of_none _ _ _ hbnone]
      simp [logLookup, hbne]

/-- Closed form of the drain loop: when the ambient log is a base without the
span's keys followed by one pending entry per span address in span order, the
drain succeeds, returns exactly those entries, and leaves the base. -/
theorem drainSpan_eq (entries : List (Nat × MemoryLocalEvent)) (addrs : List Nat)
    (ctx : SyscallContext) (base : List (Nat × MemoryLocalEvent))
    (hkeys : entries.map Prod.fst = addrs)
    (hnd : addrs.Nodup)
    (habs : ∀ a ∈ addrs, logLookup base a = none)
    (hctx : ctx.rt.local_memory_access = base ++ entries) :
    drainSpan ctx addrs = some (entries.map Prod.snd,
      { ctx with rt := { ctx.rt with local_memory_access := base } }) := by
  induction entries generalizing addrs ctx base with
  | nil =>
    subst hkeys
    obtain ⟨c, s, h, l, m, ⟨log, ⟨recl⟩⟩⟩ := ctx
    simp only [List.map_nil, List.append_nil] at hctx ⊢
    subst hctx
    simp [drainSpan]
  | cons pe rest ih =>
    obtain ⟨a, e⟩ := pe
    subst hkeys
    simp only [List.map_cons] at hnd habs ⊢
    obtain ⟨hmem, hnd'⟩ := List.nodup_cons.mp hnd
    obtain ⟨c, s, h, l, m, ⟨log, ⟨recl⟩⟩⟩ := ctx
    simp only at hctx
    subst hctx
    have ha : logLookup base a = none := habs a (by simp)
    have hlook : logLookup (base ++ (a, e) :: rest) a = some e := by
      rw [logLookup_append_of_none _ _ _ ha]
      simp [logLookup]
    have herase : logErase (base ++ (a, e) :: rest) a = base ++ rest := by
      rw [logErase_append]
      rw [logErase_of_lookup_none _ _ ha]
      have h2 : logErase ((a, e) :: rest) a = rest := by
        simp only [logErase, if_pos rfl]
        exact logErase_of_forall_ne _ _ (by
          intro p hp heq
          exact hmem (heq ▸ List.mem_map_of_mem Prod.fst hp))
      rw [h2]
    simp only [drainSpan, hlook, herase]
    rw [ih _ _ _ rfl hnd' (fun b hb => habs b (by simp [hb])) rfl]

/-- The keys of the fresh read entries of a span are the span itself. -/
theorem readEntriesOf_keys (m : Nat → Nat) (clk : Nat) (addrs : List Nat) :
    (readEntriesOf m clk addrs).map Prod.fst = addrs := by
  induction addrs with
  | nil => rfl
  | cons a rest ih => simpa [readEntriesOf] using ih

/-- The keys of the fresh write entries of a span are the written addresses. -/
theorem writeEntriesOf_keys (m : Nat → Nat) (clk : Nat) (pairs : List (Nat × Nat)) :
    (writeEntriesOf m clk pairs).map Prod.fst = pairs.map Prod.fst := by
  induction pairs with
  | nil => rfl
  | cons aw rest _ => simp [writeEntriesOf]

/-- Resizing yields exactly the requested length. -/
theorem listResize_length (l : List Nat) (n pad : Nat) : (listResize l n pad).length = n := by
  simp [listResize]
  omega

/-- Packing bytes into words yields one word per exact chunk of four bytes. -/
theorem bytes_to_words_le_vec_length :
    ∀ bs : List Nat, (bytes_to_words_le_vec bs).length = bs.length / 4
  | [] => rfl
  | [_] => by simp [bytes_to_words_le_vec]
  | [_, _] => by simp [bytes_to_words_le_vec]
  | [_, _, _] => by simp [bytes_to_words_le_vec]
  | _ :: _ :: _ :: _ :: rest => by
    simp [bytes_to_words_le_vec, bytes_to_words_le_vec_length rest]
    omega

/-- A serialized point always occupies the curve's fixed word count. -/
theorem toWordsLE_length (L : Nat) (P : Nat × Nat) : (toWordsLE L P).length = L / 2 := by
  simp [toWordsLE, bytes_to_words_le_vec_length, listResize_length]
  omega

/-- The y words of a decompress call always occupy the field's word count. -/
theorem decompYWords_length (E : EllipticCurve) (m : Nat → Nat) (sp sb : Nat) :
    (decompYWords E m sp sb).length = E.numWordsFieldElement := by
  simp [decompYWords, bytes_to_words_le_vec_length, decompYBytes, listResize_length]
  rfl

/-- A span of the curve's point words fits in the address space. -/
theorem numWords_span_bound (E : EllipticCurve) (hb : 2 * E.numLimbs ≤ M32) :
    4 * E.numWords ≤ M32 := by
  unfold EllipticCurve.numWords
  omega

/-- A span of the curve's field-element words fits in the address space. -/
theorem numWordsFieldElement_span_bound (E : EllipticCurve) (hb : 2 * E.numLimbs ≤ M32) :
    4 * E.numWordsFieldElement ≤ M32 := by
  unfold EllipticCurve.numWordsFieldElement
  omega

/-- Full characterization of an aligned add call: it succeeds and returns
exactly the closed-form event and closed-form final Execution Context. -/
theorem create_ec_add_event_spec (E : EllipticCurve) (c : SyscallContext) (pp qq : Nat)
    (hp : pp % 4 = 0) (hq : qq % 4 = 0) (hb : 2 * E.numLimbs ≤ M32) :
    create_ec_add_event E c pp qq = some (addSpecEvent E c pp qq, addSpecCtx E c pp qq) := by
  have hw : 4 * E.numWords ≤ M32 := numWords_span_bound E hb
  have hndq : (spanAddrs qq E.numWords).Nodup := spanAddrs_nodup _ _ hw
  have hndp : (spanAddrs pp E.numWords).Nodup := spanAddrs_nodup _ _ hw
  simp only [create_ec_add_event]
  rw [if_neg (show ¬pp % 4 ≠ 0 from by omega)]
  rw [if_neg (show ¬qq % 4 ≠ 0 from by omega)]
  rw [forwardStale_eq]
  simp only [mrSlice]
  rw [mrAddrs_eq _ _ hndq (fun a ha => eraseKeys_lookup_of_mem _ _ _ ha)]
  rw [drainSpan_eq (readEntriesOf c.memory c.clk (spanAddrs qq E.numWords)) _ _
    (eraseKeys (spanAddrs qq E.numWords) c.rt.local_memory_access)
    (readEntriesOf_keys _ _ _) hndq (fun a ha => eraseKeys_lookup_of_mem _ _ _ ha) rfl]
  dsimp only
  rw [toWordsLE_length]
  rw [show E.numLimbs / 2 = E.numWords from rfl]
  rw [forwardStale_eq]
  simp only [mwSlice]
  rw [toWordsLE_length]
  rw [show E.numLimbs / 2 = E.numWords from rfl]
  rw [mwAddrs_eq _ _ ?hksnd ?hkabs]
  case hksnd =>
    rw [List.map_fst_zip]
    · exact hndp
    · rw [spanAddrs_length, toWordsLE_length]
      rfl
  case hkabs =>
    intro a ha
    rw [List.map_fst_zip] at ha
    · exact eraseKeys_lookup_of_mem _ _ _ ha
    · rw [spanAddrs_length, toWordsLE_length]
      rfl
  rw [drainSpan_eq (writeEntriesOf c.memory (c.clk + 1)
      ((spanAddrs pp E.numWords).zip
        (toWordsLE E.numLimbs
          (E.ecAdd (fromWordsLE E.numLimbs (sliceUnsafe c pp E.numWords))
            (fromWordsLE E.numLimbs ((spanAddrs qq E.numWords).map c.memory)))))) _ _
    (eraseKeys (spanAddrs pp E.numWords)
      (eraseKeys (spanAddrs qq E.numWords) c.rt.local_memory_access))
    ?hkeys2 hndp (fun a ha => eraseKeys_lookup_of_mem _ _ _ ha) rfl]
  case hkeys2 =>
    rw [writeEntriesOf_keys, List.map_fst_zip]
    rw [spanAddrs_length, toWordsLE_length]
    rfl
  dsimp only
  simp only [addSpecEvent, addSpecCtx, addResultWords, sliceUnsafe]

/-- Full characterization of an aligned double call: it succeeds and returns
exactly the closed-form event and closed-form final Execution Context. -/
theorem create_ec_double_event_spec (E : EllipticCurve) (c : SyscallContext) (pp a2 : Nat)
    (hp : pp % 4 = 0) (hb : 2 * E.numLimbs ≤ M32) :
    create_ec_double_event E c pp a2 =
      some (doubleSpecEvent E c pp, doubleSpecCtx E c pp) := by
  have hw : 4 * E.numWords ≤ M32 := numWords_span_bound E hb
  have hndp : (spanAddrs pp E.numWords).Nodup := spanAddrs_nodup _ _ hw
  simp only [create_ec_double_event]
  rw [if_neg (show ¬pp % 4 ≠ 0 from by omega)]
  rw [toWordsLE_length]
  rw [show E.numLimbs / 2 = E.numWords from rfl]
  rw [forwardStale_eq]
  simp only [mwSlice]
  rw [toWordsLE_length]
  rw [show E.numLimbs / 2 = E.numWords from rfl]
  rw [mwAddrs_eq _ _ ?hksnd ?hkabs]
  case hksnd =>
    rw [List.map_fst_zip]
    · exact hndp
    · rw [spanAddrs_length, toWordsLE_length]
      rfl
  case hkabs =>
    intro a ha
    rw [List.map_fst_zip] at ha
    · exact eraseKeys_lookup_of_mem _ _ _ ha
    · rw [spanAddrs_length, toWordsLE_length]
      rfl
  rw [drainSpan_eq (writeEntriesOf c.memory c.clk
      ((spanAddrs pp E.numWords).zip
        (toWordsLE E.numLimbs
          (E.ecDouble (fromWordsLE E.numLimbs (sliceUnsafe c pp E.numWords)))))) _ _
    (eraseKeys (spanAddrs pp E.numWords) c.rt.local_memory_access)
    ?hkeys2 hndp (fun a ha => eraseKeys_lookup_of_mem _ _ _ ha) rfl]
  case hkeys2 =>
    rw [writeEntriesOf_keys, List.map_fst_zip]
    rw [spanAddrs_length, toWordsLE_length]
    rfl
  dsimp only
  simp only [doubleSpecEvent, doubleSpecCtx, doubleResultWords, sliceUnsafe]

/-- Full characterization of a valid decompress call: it succeeds and returns
exactly the closed-form event and closed-form final Execution Context. -/
theorem create_ec_decompress_event_spec (E : EllipticCurve) (c : SyscallContext) (sp sb : Nat)
    (hs : sp % 4 = 0) (hsb : sb ≤ 1) (hb : 2 * E.numLimbs ≤ M32) :
    create_ec_decompress_event E c sp sb =
      some (decompSpecEvent E c sp sb, decompSpecCtx E c sp sb) := by
  have hw : 4 * E.numWordsFieldElement ≤ M32 := numWordsFieldElement_span_bound E hb
  have hndx : (spanAddrs (sp + E.numLimbs) E.numWordsFieldElement).Nodup :=
    spanAddrs_nodup _ _ hw
  have hndy : (spanAddrs sp E.numWordsFieldElement).Nodup := spanAddrs_nodup _ _ hw
  simp only [create_ec_decompress_event]
  rw [if_neg (show ¬sp % 4 ≠ 0 from by omega)]
  rw [if_neg (show ¬sb > 1 from by omega)]
  rw [show E.numLimbs / 4 = E.numWordsFieldElement from rfl]
  rw [forwardStale_eq]
  simp only [mrSlice]
  rw [mrAddrs_eq _ _ hndx (fun a ha => eraseKeys_lookup_of_mem _ _ _ ha)]
  rw [drainSpan_eq
    (readEntriesOf c.memory c.clk (spanAddrs (sp + E.numLimbs) E.numWordsFieldElement)) _ _
    (eraseKeys (spanAddrs (sp + E.numLimbs) E.numWordsFieldElement) c.rt.local_memory_access)
    (readEntriesOf_keys _ _ _) hndx (fun a ha => eraseKeys_lookup_of_mem _ _ _ ha) rfl]
  dsimp only
  rw [bytes_to_words_le_vec_length, listResize_length]
  rw [show E.numLimbs / 4 = E.numWordsFieldElement from rfl]
  rw [forwardStale_eq]
  simp only [mwSlice]
  rw [bytes_to_words_le_vec_length, listResize_length]
  rw [show E.numLimbs / 4 = E.numWordsFieldElement from rfl]
  rw [mwAddrs_eq _ _ ?hksnd ?hkabs]
  case hksnd =>
    rw [List.map_fst_zip]
    · exact hndy
    · rw [spanAddrs_length, bytes_to_words_le_vec_length, listResize_length]
      rfl
  case hkabs =>
    intro a ha
    rw [List.map_fst_zip] at ha
    · exact eraseKeys_lookup_of_mem _ _ _ ha
    · rw [spanAddrs_length, bytes_to_words_le_vec_length, listResize_length]
      rfl
  rw [drainSpan_eq (writeEntriesOf c.memory c.clk
      ((spanAddrs sp E.numWordsFieldElement).zip
        (bytes_to_words_le_vec
          (listResize
            (natToBytesLE
              ((E.decompressFn
                (words_to_bytes_le_vec
                  ((spanAddrs (sp + E.numLimbs) E.numWordsFieldElement).map c.memory)).reverse
                sb).2))
            E.numLimbs 0)))) _ _
    (eraseKeys (spanAddrs sp E.numWordsFieldElement)
      (eraseKeys (spanAddrs (sp + E.numLimbs) E.numWordsFieldElement) c.rt.local_memory_access))
    ?hkeys2 hndy (fun a ha => eraseKeys_lookup_of_mem _ _ _ ha) rfl]
  case hkeys2 =>
    rw [writeEntriesOf_keys, List.map_fst_zip]
    rw [spanAddrs_length, bytes_to_words_le_vec_length, listResize_length]
    rfl
  dsimp only
  simp only [decompSpecEvent, decompSpecCtx, decompXBytes, decompYBytes, decompYWords]

/-- The little-endian byte expansion reassembles to the original number. -/
theorem toBytesLEAux_from : ∀ fuel n : Nat, n ≤ fuel →
    natFromBytesLE (toBytesLEAux fuel n) = n
  | 0, n, h => by
    simp only [toBytesLEAux, natFromBytesLE]
    omega
  | fuel + 1, n, h => by
    by_cases h0 : n = 0
    · simp [toBytesLEAux, h0, natFromBytesLE]
    · have hrec := toBytesLEAux_from fuel (n / 256) (by omega)
      simp [toBytesLEAux, h0, natFromBytesLE, hrec]
      omega

/-- Serializing then reassembling a natural number is the identity. -/
theorem natFromBytesLE_natToBytesLE (n : Nat) : natFromBytesLE (natToBytesLE n) = n :=
  toBytesLEAux_from n n le_rfl

/-- A number below the byte-width bound serializes into at most that many
bytes. -/
theorem toBytesLEAux_length_le : ∀ fuel n L : Nat, n ≤ fuel → n < 256 ^ L →
    (toBytesLEAux fuel n).length ≤ L
  | 0, _, _, _, _ => by simp [toBytesLEAux]
  | fuel + 1, n, L, h, hL => by
    by_cases h0 : n = 0
    · simp [toBytesLEAux, h0]
    · cases L with
      | zero => simp at hL; omega
      | succ L2 =>
        have hdiv : n / 256 < 256 ^ L2 := by
          rw [pow_succ] at hL
          exact (Nat.div_lt_iff_lt_mul (by norm_num)).mpr hL
        have hrec := toBytesLEAux_length_le fuel (n / 256) L2 (by omega) hdiv
        simp [toBytesLEAux, h0]
        omega

/-- The minimal serialization of a bounded number fits the limb width. -/
theorem natToBytesLE_length_le (n L : Nat) (h : n < 256 ^ L) :
    (natToBytesLE n).length ≤ L :=
  toBytesLEAux_length_le n n L le_rfl h

/-- Every byte of the serialization is an actual byte. -/
theorem toBytesLEAux_lt : ∀ fuel n : Nat, ∀ b ∈ toBytesLEAux fuel n, b < 256
  | 0, n => by simp [toBytesLEAux]
  | fuel + 1, n => by
    by_cases h0 : n = 0
    · simp [toBytesLEAux, h0]
    · intro b hb
      simp only [toBytesLEAux, if_neg h0, List.mem_cons] at hb
      rcases hb with hb | hb
      · omega
      · exact toBytesLEAux_lt fuel (n / 256) b hb

/-- Every byte of the minimal serialization is an actual byte. -/
theorem natToBytesLE_lt (n : Nat) : ∀ b ∈ natToBytesLE n, b < 256 :=
  toBytesLEAux_lt n n

/-- Zero padding contributes nothing to the reassembled value. -/
theorem natFromBytesLE_replicate_zero : ∀ k : Nat, natFromBytesLE (List.replicate k 0) = 0
  | 0 => rfl
  | k + 1 => by
    simp [List.replicate, natFromBytesLE, natFromBytesLE_replicate_zero k]

/-- Appending zero padding does not change the reassembled value. -/
theorem natFromBytesLE_append_replicate_zero (bs : List Nat) (k : Nat) :
    natFromBytesLE (bs ++ List.replicate k 0) = natFromBytesLE bs := by
  induction bs with
  | nil => simp [natFromBytesLE, natFromBytesLE_replicate_zero]
  | cons b rest ih => simp [natFromBytesLE, ih]

/-- Reassembling a zero-padded serialization recovers the number, as long as it
fits the limb width. -/
theorem natFromBytesLE_listResize (n L : Nat) (h : n < 256 ^ L) :
    natFromBytesLE (listResize (natToBytesLE n) L 0) = n := by
  have hlen : (natToBytesLE n).length ≤ L := natToBytesLE_length_le n L h
  rw [listResize, List.take_of_length_le hlen, natFromBytesLE_append_replicate_zero,
    natFromBytesLE_natToBytesLE]

/-- Unpacking one packed word gives back its four bytes. -/
theorem wordToBytesLE_pack (b0 b1 b2 b3 : Nat) (h0 : b0 < 256) (h1 : b1 < 256)
    (h2 : b2 < 256) (h3 : b3 < 256) :
    wordToBytesLE (b0 + 256 * b1 + 65536 * b2 + 16777216 * b3) = [b0, b1, b2, b3] := by
  simp only [wordToBytesLE, List.cons.injEq, and_true]
  refine ⟨?_, ?_, ?_, ?_⟩ <;> omega

/-- Packing bytes into words and unpacking again is the identity on byte lists
whose length is a multiple of four. -/
theorem words_to_bytes_of_pack : ∀ bs : List Nat, bs.length % 4 = 0 →
    (∀ b ∈ bs, b < 256) → words_to_bytes_le_vec (bytes_to_words_le_vec bs) = bs
  | [], _, _ => rfl
  | [_], h, _ => by simp at h
  | [_, _], h, _ => by simp at h
  | [_, _, _], h, _ => by simp at h
  | b0 :: b1 :: b2 :: b3 :: rest, h4, hlt => by
    have hrest : rest.length % 4 = 0 := by
      simp only [List.length_cons] at h4
      omega
    have hrec := words_to_bytes_of_pack rest hrest (fun b hb => hlt b (by simp [hb]))
    simp only [bytes_to_words_le_vec, words_to_bytes_le_vec, List.flatMap_cons]
    rw [wordToBytesLE_pack b0 b1 b2 b3 (hlt b0 (by simp)) (hlt b1 (by simp))
      (hlt b2 (by simp)) (hlt b3 (by simp))]
    simp only [words_to_bytes_le_vec] at hrec
    rw [hrec]
    rfl

/-- Every byte of a zero-resized byte list is an actual byte. -/
theorem listResize_lt (l : List Nat) (n : Nat) (hl : ∀ b ∈ l, b < 256) :
    ∀ b ∈ listResize l n 0, b < 256 := by
  intro b hb
  rcases List.mem_append.mp hb with hb | hb
  · exact hl b (List.take_subset n l hb)
  · rw [List.eq_of_mem_replicate hb]
    norm_num

/-- Decoding a serialized point recovers it, as long as both coordinates fit
the limb width. -/
theorem fromWordsLE_toWordsLE (L : Nat) (P : Nat × Nat) (hL : L % 2 = 0)
    (hx : P.1 < 256 ^ L) (hy : P.2 < 256 ^ L) :
    fromWordsLE L (toWordsLE L P) = P := by
  have hA : (listResize (natToBytesLE P.1) L 0).length = L := listResize_length _ _ _
  have hB : (listResize (natToBytesLE P.2) L 0).length = L := listResize_length _ _ _
  have hlen4 : (listResize (natToBytesLE P.1) L 0 ++ listResize (natToBytesLE P.2) L 0).length
      % 4 = 0 := by
    rw [List.length_append, hA, hB]
    omega
  have hbytes : ∀ b ∈ listResize (natToBytesLE P.1) L 0 ++ listResize (natToBytesLE P.2) L 0,
      b < 256 := by
    intro b hb
    rcases List.mem_append.mp hb with hb | hb
    · exact listResize_lt _ _ (natToBytesLE_lt _) b hb
    · exact listResize_lt _ _ (natToBytesLE_lt _) b hb
  rw [fromWordsLE, toWordsLE, words_to_bytes_of_pack _ hlen4 hbytes]
  rw [List.take_left' hA, List.drop_left' hA]
  rw [natFromBytesLE_listResize _ _ hx, natFromBytesLE_listResize _ _ hy]

/-- Addresses not written by a batch of writes keep their value. -/
theorem memWriteList_not_mem (pairs : List (Nat × Nat)) (m : Nat → Nat) (a : Nat)
    (h : a ∉ pairs.map Prod.fst) : memWriteList m pairs a = m a := by
  induction pairs generalizing m with
  | nil => rfl
  | cons bw rest ih =>
    obtain ⟨b, w⟩ := bw
    simp only [List.map_cons, List.mem_cons] at h
    push_neg at h
    simp only [memWriteList]
    rw [ih _ h.2]
    simp [memUpdate, h.1]

/-- After a batch of writes to distinct addresses, each written address holds
its word. -/
theorem memWriteList_span (pairs : List (Nat × Nat)) (m : Nat → Nat)
    (hnd : (pairs.map Prod.fst).Nodup) :
    (pairs.map Prod.fst).map (memWriteList m pairs) = pairs.map Prod.snd := by
  induction pairs generalizing m with
  | nil => rfl
  | cons bw rest ih =>
    obtain ⟨b, w⟩ := bw
    simp only [List.map_cons] at hnd
    obtain ⟨hmem, hnd'⟩ := List.nodup_cons.mp hnd
    simp only [List.map_cons, memWriteList]
    rw [ih _ hnd']
    rw [memWriteList_not_mem _ _ _ hmem]
    simp [memUpdate]

/-- A list of local events whose addresses are a duplicate-free key list holds
exactly one entry per key and none for other addresses. -/
theorem countP_addr_of_keys (l : List MemoryLocalEvent) (keys : List Nat) (a : Nat)
    (hk : l.map MemoryLocalEvent.addr = keys) (hnd : keys.Nodup) :
    l.countP (fun e => e.addr == a) = if a ∈ keys then 1 else 0 := by
  induction l generalizing keys with
  | nil =>
    subst hk
    simp
  | cons e rest ih =>
    subst hk
    simp only [List.map_cons] at hnd
    obtain ⟨hmem, hnd'⟩ := List.nodup_cons.mp hnd
    rw [List.countP_cons]
    rw [ih _ rfl hnd']
    by_cases hea : e.addr = a
    · subst hea
      simp [hmem]
    · have h1 : (e.addr == a) = false := by simp [hea]
      simp [h1, Ne.symm hea]

/-- The addresses of the fresh read entries are the span. -/
theorem readEntriesOf_snd_addrs (m : Nat → Nat) (clk : Nat) (addrs : List Nat) :
    ((readEntriesOf m clk addrs).map Prod.snd).map MemoryLocalEvent.addr = addrs := by
  induction addrs with
  | nil => rfl
  | cons a rest ih => simpa [readEntriesOf] using ih

/-- The addresses of the fresh write entries are the written addresses. -/
theorem writeEntriesOf_snd_addrs (m : Nat → Nat) (clk : Nat) (pairs : List (Nat × Nat)) :
    ((writeEntriesOf m clk pairs).map Prod.snd).map MemoryLocalEvent.addr =
      pairs.map Prod.fst := by
  induction pairs with
  | nil => rfl
  | cons aw rest _ => simp [writeEntriesOf]

/-- C6: Alignment rejection: a pointer argument not divisible by 4 makes each of
the three constructors abort fatally (modelled as `none` for the Rust panic)
before any memory read, any memory write, or any mutation of the local-access
log or clock: no partial event and no successor state is produced at all. -/
theorem c6_alignment_rejection (E : EllipticCurve) (c : SyscallContext) (a1 a2 : Nat) :
    (a1 % 4 ≠ 0 ∨ a2 % 4 ≠ 0 → create_ec_add_event E c a1 a2 = none) ∧
    (a1 % 4 ≠ 0 → create_ec_double_event E c a1 a2 = none) ∧
    (a1 % 4 ≠ 0 → create_ec_decompress_event E c a1 a2 = none) := by
  refine ⟨?_, ?_, ?_⟩
  · intro h
    rcases h with h | h
    · simp [create_ec_add_event, h]
    · by_cases h1 : a1 % 4 ≠ 0
      · simp [create_ec_add_event, h1]
      · simp [create_ec_add_event, h1, h]
  · intro h
    simp [create_ec_double_event, h]
  · intro h
    simp [create_ec_decompress_event, h]

/-- Witness for C6 at the concrete misaligned pointer 1. -/
theorem c6_alignment_rejection_witness :
    (1 : Nat) % 4 ≠ 0 ∧
    create_ec_add_event toyCurve toyCtx 1 0 = none ∧
    create_ec_double_event toyCurve toyCtx 1 0 = none ∧
    create_ec_decompress_event toyCurve toyCtx 1 0 = none :=
  ⟨by decide,
   (c6_alignment_rejection toyCurve toyCtx 1 0).1 (Or.inl (by decide)),
   (c6_alignment_rejection toyCurve toyCtx 1 0).2.1 (by decide),
   (c6_alignment_rejection toyCurve toyCtx 1 0).2.2 (by decide)⟩

/-- C5: Clock discipline of the add constructor: every successful call advances
the execution clock by exactly one tick, strictly after the Q read records are
produced (their timestamps carry the entry clock) and strictly before the P
write records are produced (their timestamps carry the bumped clock), and the
returned event's clk field equals the clock value at entry. -/
theorem c5_add_clock_discipline (E : EllipticCurve) (c : SyscallContext) (pp qq : Nat)
    (hp : pp % 4 = 0) (hq : qq % 4 = 0) (hb : 2 * E.numLimbs ≤ M32) :
    ∃ ev c2, create_ec_add_event E c pp qq = some (ev, c2) ∧
      ev.clk = c.clk ∧ c2.clk = c.clk + 1 ∧
      (∀ r ∈ ev.q_memory_records, r.timestamp = c.clk) ∧
      (∀ w ∈ ev.p_memory_records, w.timestamp = c.clk + 1) := by
  refine ⟨_, _, create_ec_add_event_spec E c pp qq hp hq hb, rfl, rfl, ?_, ?_⟩
  · intro r hr
    simp only [addSpecEvent, readRecordsOf, List.mem_map] at hr
    obtain ⟨a, _, rfl⟩ := hr
    rfl
  · intro w hw
    simp only [addSpecEvent, writeRecordsOf, List.mem_map] at hw
    obtain ⟨aw, _, rfl⟩ := hw
    rfl

/-- Witness for C5 at the concrete aligned call with pointers 0 and 8. -/
theorem c5_add_clock_discipline_witness :
    ((0 : Nat) % 4 = 0 ∧ (8 : Nat) % 4 = 0 ∧ 2 * toyCurve.numLimbs ≤ M32) ∧
    (∃ ev c2, create_ec_add_event toyCurve toyCtx 0 8 = some (ev, c2) ∧
      ev.clk = toyCtx.clk ∧ c2.clk = toyCtx.clk + 1 ∧
      (∀ r ∈ ev.q_memory_records, r.timestamp = toyCtx.clk) ∧
      (∀ w ∈ ev.p_memory_records, w.timestamp = toyCtx.clk + 1)) :=
  ⟨⟨by decide, by decide, by decide⟩,
   c5_add_clock_discipline toyCurve toyCtx 0 8 (by decide) (by decide) (by decide)⟩

/-- C9: Only the add constructor advances the clock: the double and decompress
constructors leave the context clock unchanged and stamp their event with the
entry clock, while the add constructor's explicit one-tick increment leaves the
context clock one above the entry clock. -/
theorem c9_only_add_advances_clock (E : EllipticCurve) (c : SyscallContext)
    (pp qq dd d2 sp sb : Nat) (hp : pp % 4 = 0) (hq : qq % 4 = 0) (hd : dd % 4 = 0)
    (hs : sp % 4 = 0) (hsb : sb ≤ 1) (hb : 2 * E.numLimbs ≤ M32) :
    (∃ ev c2, create_ec_double_event E c dd d2 = some (ev, c2) ∧
      c2.clk = c.clk ∧ ev.clk = c.clk) ∧
    (∃ ev c2, create_ec_decompress_event E c sp sb = some (ev, c2) ∧
      c2.clk = c.clk ∧ ev.clk = c.clk) ∧
    (∃ ev c2, create_ec_add_event E c pp qq = some (ev, c2) ∧
      c2.clk = c.clk + 1 ∧ ev.clk = c.clk) :=
  ⟨⟨_, _, create_ec_double_event_spec E c dd d2 hd hb, rfl, rfl⟩,
   ⟨_, _, create_ec_decompress_event_spec E c sp sb hs hsb hb, rfl, rfl⟩,
   ⟨_, _, create_ec_add_event_spec E c pp qq hp hq hb, rfl, rfl⟩⟩

/-- Witness for C9 at concrete aligned calls. -/
theorem c9_only_add_advances_clock_witness :
    ((0 : Nat) % 4 = 0 ∧ (1 : Nat) ≤ 1) ∧
    ((∃ ev c2, create_ec_double_event toyCurve toyCtx 0 0 = some (ev, c2) ∧
      c2.clk = toyCtx.clk ∧ ev.clk = toyCtx.clk) ∧
    (∃ ev c2, create_ec_decompress_event toyCurve toyCtx 0 1 = some (ev, c2) ∧
      c2.clk = toyCtx.clk ∧ ev.clk = toyCtx.clk) ∧
    (∃ ev c2, create_ec_add_event toyCurve toyCtx 0 8 = some (ev, c2) ∧
      c2.clk = toyCtx.clk + 1 ∧ ev.clk = toyCtx.clk)) :=
  ⟨⟨by decide, by decide⟩,
   c9_only_add_advances_clock toyCurve toyCtx 0 8 0 0 0 1 (by decide) (by decide)
     (by decide) (by decide) (by decide) (by decide)⟩

/-- C7: Fixed-shape records: every successful call emits exactly the curve's
fixed number of memory records, independent of the stored values: the add
constructor emits `numWords` read records for Q and `numWords` write records
for P, the double constructor emits `numWords` write records, and the
decompress constructor emits `numLimbs / 4` read records for x and
`numLimbs / 4` write records for y. -/
theorem c7_fixed_shape_records (E : EllipticCurve) (c : SyscallContext)
    (pp qq dd d2 sp sb : Nat) (hp : pp % 4 = 0) (hq : qq % 4 = 0) (hd : dd % 4 = 0)
    (hs : sp % 4 = 0) (hsb : sb ≤ 1) (hb : 2 * E.numLimbs ≤ M32) :
    (∃ ev c2, create_ec_add_event E c pp qq = some (ev, c2) ∧
      ev.q_memory_records.length = E.numWords ∧
      ev.p_memory_records.length = E.numWords) ∧
    (∃ ev c2, create_ec_double_event E c dd d2 = some (ev, c2) ∧
      ev.p_memory_records.length = E.numWords) ∧
    (∃ ev c2, create_ec_decompress_event E c sp sb = some (ev, c2) ∧
      ev.x_memory_records.length = E.numLimbs / 4 ∧
      ev.y_memory_records.length = E.numLimbs / 4) := by
  refine ⟨⟨_, _, create_ec_add_event_spec E c pp qq hp hq hb, ?_, ?_⟩,
    ⟨_, _, create_ec_double_event_spec E c dd d2 hd hb, ?_⟩,
    ⟨_, _, create_ec_decompress_event_spec E c sp sb hs hsb hb, ?_, ?_⟩⟩
  · simp [addSpecEvent, readRecordsOf, spanAddrs_length]
  · simp [addSpecEvent, writeRecordsOf, addResultWords, List.length_zip, spanAddrs_length,
      toWordsLE_length, EllipticCurve.numWords]
  · simp [doubleSpecEvent, writeRecordsOf, doubleResultWords, List.length_zip,
      spanAddrs_length, toWordsLE_length, EllipticCurve.numWords]
  · simp [decompSpecEvent, readRecordsOf, spanAddrs_length, EllipticCurve.numWordsFieldElement]
  · simp [decompSpecEvent, writeRecordsOf, decompYWords, decompYBytes, List.length_zip,
      spanAddrs_length, bytes_to_words_le_vec_length, listResize_length,
      EllipticCurve.numWordsFieldElement]

/-- Witness for C7 at concrete aligned calls. -/
theorem c7_fixed_shape_records_witness :
    ((0 : Nat) % 4 = 0 ∧ (8 : Nat) % 4 = 0) ∧
    ((∃ ev c2, create_ec_add_event toyCurve toyCtx 0 8 = some (ev, c2) ∧
      ev.q_memory_records.length = toyCurve.numWords ∧
      ev.p_memory_records.length = toyCurve.numWords) ∧
    (∃ ev c2, create_ec_double_event toyCurve toyCtx 0 0 = some (ev, c2) ∧
      ev.p_memory_records.length = toyCurve.numWords) ∧
    (∃ ev c2, create_ec_decompress_event toyCurve toyCtx 0 1 = some (ev, c2) ∧
      ev.x_memory_records.length = toyCurve.numLimbs / 4 ∧
      ev.y_memory_records.length = toyCurve.numLimbs / 4)) :=
  ⟨⟨by decide, by decide⟩,
   c7_fixed_shape_records toyCurve toyCtx 0 8 0 0 0 1 (by decide) (by decide) (by decide)
     (by decide) (by decide) (by decide)⟩

/-- Writing words along a duplicate-free span leaves exactly those words on the
span. -/
theorem memWriteList_zip_span (addrs ws : List Nat) (m : Nat → Nat)
    (hnd : addrs.Nodup) (hlen : ws.length = addrs.length) :
    addrs.map (memWriteList m (addrs.zip ws)) = ws := by
  have hfst : (addrs.zip ws).map Prod.fst = addrs := List.map_fst_zip _ _ (by omega)
  have h := memWriteList_span (addrs.zip ws) m (by rw [hfst]; exact hnd)
  rw [hfst] at h
  rw [h]
  exact List.map_snd_zip _ _ (by omega)

/-- The memory left by an aligned add call holds the result words on the P span
and the old value everywhere outside it. -/
theorem addSpecCtx_memory_span (E : EllipticCurve) (c : SyscallContext) (pp qq : Nat)
    (hb : 2 * E.numLimbs ≤ M32) :
    (spanAddrs pp E.numWords).map (addSpecCtx E c pp qq).memory =
      addResultWords E c.memory pp qq ∧
    ∀ a, a ∉ spanAddrs pp E.numWords → (addSpecCtx E c pp qq).memory a = c.memory a := by
  have hndp := spanAddrs_nodup pp E.numWords (numWords_span_bound E hb)
  have hlen : (addResultWords E c.memory pp qq).length = E.numWords := by
    rw [addResultWords, toWordsLE_length]
    rfl
  constructor
  · show (spanAddrs pp E.numWords).map
      (memWriteList c.memory
        ((spanAddrs pp E.numWords).zip (addResultWords E c.memory pp qq))) =
      addResultWords E c.memory pp qq
    apply memWriteList_zip_span _ _ _ hndp
    rw [spanAddrs_length]
    exact hlen
  · intro a ha
    show memWriteList c.memory
      ((spanAddrs pp E.numWords).zip (addResultWords E c.memory pp qq)) a = c.memory a
    apply memWriteList_not_mem
    rw [List.map_fst_zip]
    · exact ha
    · rw [spanAddrs_length]
      omega

/-- C3 counterexample: at the aliased concrete call with both pointers 0 on the
toy curve, the address 0 belongs to the Q span yet its stored word changes from
0 to 1, so the claim that every aligned call leaves the `q_ptr` span untouched
is false. -/
theorem c3_aliased_q_mutation_cex :
    (0 : Nat) ∈ spanAddrs 0 toyCurve.numWords ∧
    toyCtx.memory 0 = 0 ∧
    (create_ec_add_event toyCurve toyCtx 0 0).map (fun r => r.2.memory 0) = some 1 := by
  decide

/-- C3 amended: for every call to the add constructor meeting its alignment
preconditions, the only memory words mutated are the `numWords` words starting
at `p_ptr`, which receive the encoding of P + Q; every address outside that
span, in particular every `q_ptr`-span address not shared with the `p_ptr`
span, keeps its value. When the two spans alias, the shared words are mutated
by the P write. -/
theorem c3_add_frame (E : EllipticCurve) (c : SyscallContext) (pp qq : Nat)
    (hp : pp % 4 = 0) (hq : qq % 4 = 0) (hb : 2 * E.numLimbs ≤ M32) :
    ∃ ev c2, create_ec_add_event E c pp qq = some (ev, c2) ∧
      (spanAddrs pp E.numWords).map c2.memory = addResultWords E c.memory pp qq ∧
      (∀ a, a ∉ spanAddrs pp E.numWords → c2.memory a = c.memory a) ∧
      (∀ a ∈ spanAddrs qq E.numWords, a ∉ spanAddrs pp E.numWords →
        c2.memory a = c.memory a) := by
  refine ⟨_, _, create_ec_add_event_spec E c pp qq hp hq hb,
    (addSpecCtx_memory_span E c pp qq hb).1, (addSpecCtx_memory_span E c pp qq hb).2, ?_⟩
  intro a _ ha
  exact (addSpecCtx_memory_span E c pp qq hb).2 a ha

/-- Witness for the amended C3 at the concrete aligned call with pointers 0 and
8. -/
theorem c3_add_frame_witness :
    ((0 : Nat) % 4 = 0 ∧ (8 : Nat) % 4 = 0) ∧
    (∃ ev c2, create_ec_add_event toyCurve toyCtx 0 8 = some (ev, c2) ∧
      (spanAddrs 0 toyCurve.numWords).map c2.memory =
        addResultWords toyCurve toyCtx.memory 0 8 ∧
      (∀ a, a ∉ spanAddrs 0 toyCurve.numWords → c2.memory a = toyCtx.memory a) ∧
      (∀ a ∈ spanAddrs 8 toyCurve.numWords, a ∉ spanAddrs 0 toyCurve.numWords →
        c2.memory a = toyCtx.memory a)) :=
  ⟨⟨by decide, by decide⟩,
   c3_add_frame toyCurve toyCtx 0 8 (by decide) (by decide) (by decide)⟩

/-- C2: Aliased operands: an aligned add call with `p_ptr = q_ptr = v` on a
stored point P reads both operands as P before writing, so the words written at
v are the encoding of P + P (the doubling of P under the curve's group law) and
decode back to it; the clock increment separates every Q read record from every
P write record on the shared addresses by a strictly smaller timestamp. -/
theorem c2_aliased_add_correct (E : EllipticCurve) (c : SyscallContext) (v : Nat)
    (P : Nat × Nat) (hv : v % 4 = 0) (hb : 2 * E.numLimbs ≤ M32)
    (hL : E.numLimbs % 2 = 0)
    (hmem : fromWordsLE E.numLimbs ((spanAddrs v E.numWords).map c.memory) = P)
    (hx : (E.ecAdd P P).1 < 256 ^ E.numLimbs) (hy : (E.ecAdd P P).2 < 256 ^ E.numLimbs) :
    ∃ ev c2, create_ec_add_event E c v v = some (ev, c2) ∧
      (spanAddrs v E.numWords).map c2.memory = toWordsLE E.numLimbs (E.ecAdd P P) ∧
      fromWordsLE E.numLimbs ((spanAddrs v E.numWords).map c2.memory) = E.ecAdd P P ∧
      (∀ r ∈ ev.q_memory_records, ∀ w ∈ ev.p_memory_records,
        r.timestamp < w.timestamp) := by
  have hres : addResultWords E c.memory v v = toWordsLE E.numLimbs (E.ecAdd P P) := by
    rw [addResultWords, hmem]
  have hspan := (addSpecCtx_memory_span E c v v hb).1
  rw [hres] at hspan
  refine ⟨_, _, create_ec_add_event_spec E c v v hv hv hb, hspan, ?_, ?_⟩
  · rw [hspan]
    exact fromWordsLE_toWordsLE E.numLimbs (E.ecAdd P P) hL hx hy
  · intro r hr w hw
    simp only [addSpecEvent, readRecordsOf, List.mem_map] at hr
    obtain ⟨a, _, rfl⟩ := hr
    simp only [addSpecEvent, writeRecordsOf, List.mem_map] at hw
    obtain ⟨aw, _, rfl⟩ := hw
    show c.clk < c.clk + 1
    omega

/-- Witness for C2 at the concrete aliased call on pointer 0 storing the point
(0, 0). -/
theorem c2_aliased_add_correct_witness :
    ((0 : Nat) % 4 = 0 ∧ toyCurve.numLimbs % 2 = 0 ∧
      fromWordsLE toyCurve.numLimbs
        ((spanAddrs 0 toyCurve.numWords).map toyCtx.memory) = (0, 0) ∧
      (toyCurve.ecAdd (0, 0) (0, 0)).1 < 256 ^ toyCurve.numLimbs) ∧
    (∃ ev c2, create_ec_add_event toyCurve toyCtx 0 0 = some (ev, c2) ∧
      (spanAddrs 0 toyCurve.numWords).map c2.memory =
        toWordsLE toyCurve.numLimbs (toyCurve.ecAdd (0, 0) (0, 0)) ∧
      fromWordsLE toyCurve.numLimbs ((spanAddrs 0 toyCurve.numWords).map c2.memory) =
        toyCurve.ecAdd (0, 0) (0, 0) ∧
      (∀ r ∈ ev.q_memory_records, ∀ w ∈ ev.p_memory_records,
        r.timestamp < w.timestamp)) :=
  ⟨⟨by decide, by decide, by decide, by decide⟩,
   c2_aliased_add_correct toyCurve toyCtx 0 (0, 0) (by decide) (by decide) (by decide)
     (by decide) (by decide) (by decide)⟩

/-- C4: Decompress layout and padding: every valid decompress call reads the x
coordinate from the `numLimbs / 4` words starting at `slice_ptr + numLimbs`,
computes y by the curve's decompression function applied to the big-endian
reversal of those bytes and the sign bit, and writes y serialized little-endian
and zero-padded to exactly `numLimbs` bytes into the words starting at
`slice_ptr`, so the event's `decompressed_y_bytes` always has length
`numLimbs`. -/
theorem c4_decompress_layout (E : EllipticCurve) (c : SyscallContext) (sp sb : Nat)
    (hs : sp % 4 = 0) (hsb : sb ≤ 1) (hb : 2 * E.numLimbs ≤ M32) :
    ∃ ev c2, create_ec_decompress_event E c sp sb = some (ev, c2) ∧
      ev.x_bytes = words_to_bytes_le_vec
        ((spanAddrs (sp + E.numLimbs) (E.numLimbs / 4)).map c.memory) ∧
      ev.x_memory_records = readRecordsOf c.memory c.clk
        (spanAddrs (sp + E.numLimbs) (E.numLimbs / 4)) ∧
      ev.decompressed_y_bytes = listResize
        (natToBytesLE ((E.decompressFn ev.x_bytes.reverse sb).2)) E.numLimbs 0 ∧
      ev.decompressed_y_bytes.length = E.numLimbs ∧
      (spanAddrs sp (E.numLimbs / 4)).map c2.memory =
        bytes_to_words_le_vec ev.decompressed_y_bytes := by
  have hndy := spanAddrs_nodup sp E.numWordsFieldElement
    (numWordsFieldElement_span_bound E hb)
  have hlen : (decompYWords E c.memory sp sb).length = E.numWordsFieldElement :=
    decompYWords_length E c.memory sp sb
  refine ⟨_, _, create_ec_decompress_event_spec E c sp sb hs hsb hb, rfl, rfl, rfl,
    listResize_length _ _ _, ?_⟩
  show (spanAddrs sp E.numWordsFieldElement).map
    (memWriteList c.memory
      ((spanAddrs sp E.numWordsFieldElement).zip (decompYWords E c.memory sp sb))) =
    decompYWords E c.memory sp sb
  apply memWriteList_zip_span _ _ _ hndy
  rw [spanAddrs_length]
  exact hlen

/-- Witness for C4 at the concrete valid call with slice pointer 0 and sign bit
1. -/
theorem c4_decompress_layout_witness :
    ((0 : Nat) % 4 = 0 ∧ (1 : Nat) ≤ 1) ∧
    (∃ ev c2, create_ec_decompress_event toyCurve toyCtx 0 1 = some (ev, c2) ∧
      ev.x_bytes = words_to_bytes_le_vec
        ((spanAddrs (0 + toyCurve.numLimbs) (toyCurve.numLimbs / 4)).map toyCtx.memory) ∧
      ev.x_memory_records = readRecordsOf toyCtx.memory toyCtx.clk
        (spanAddrs (0 + toyCurve.numLimbs) (toyCurve.numLimbs / 4)) ∧
      ev.decompressed_y_bytes = listResize
        (natToBytesLE ((toyCurve.decompressFn ev.x_bytes.reverse 1).2))
        toyCurve.numLimbs 0 ∧
      ev.decompressed_y_bytes.length = toyCurve.numLimbs ∧
      (spanAddrs 0 (toyCurve.numLimbs / 4)).map c2.memory =
        bytes_to_words_le_vec ev.decompressed_y_bytes) :=
  ⟨⟨by decide, by decide⟩,
   c4_decompress_layout toyCurve toyCtx 0 1 (by decide) (by decide) (by decide)⟩

/-- C10: The P pre-image read is unrecorded: the operand words stored in the
event's p field come from `sliceUnsafe`, which by its type produces no memory
records and no local-access entries and leaves the context untouched; the
event's read records are exactly the Q-span records, and the P-span entries of
the event's local-access list are exactly the fresh write-phase entries. -/
theorem c10_unrecorded_preimage_read (E : EllipticCurve) (c : SyscallContext)
    (pp qq dd d2 : Nat) (hp : pp % 4 = 0) (hq : qq % 4 = 0) (hd : dd % 4 = 0)
    (hb : 2 * E.numLimbs ≤ M32) :
    (∃ ev c2, create_ec_add_event E c pp qq = some (ev, c2) ∧
      ev.p = sliceUnsafe c pp E.numWords ∧
      ev.p = (spanAddrs pp E.numWords).map c.memory ∧
      ev.q_memory_records = readRecordsOf c.memory c.clk (spanAddrs qq E.numWords) ∧
      ev.local_mem_access =
        (readEntriesOf c.memory c.clk (spanAddrs qq E.numWords)).map Prod.snd ++
        (writeEntriesOf c.memory (c.clk + 1)
          ((spanAddrs pp E.numWords).zip (addResultWords E c.memory pp qq))).map
          Prod.snd) ∧
    (∃ ev c2, create_ec_double_event E c dd d2 = some (ev, c2) ∧
      ev.p = sliceUnsafe c dd E.numWords ∧
      ev.local_mem_access = (writeEntriesOf c.memory c.clk
        ((spanAddrs dd E.numWords).zip (doubleResultWords E c.memory dd))).map Prod.snd) :=
  ⟨⟨_, _, create_ec_add_event_spec E c pp qq hp hq hb, rfl, rfl, rfl, rfl⟩,
   ⟨_, _, create_ec_double_event_spec E c dd d2 hd hb, rfl, rfl⟩⟩

/-- Witness for C10 at concrete aligned calls. -/
theorem c10_unrecorded_preimage_read_witness :
    ((0 : Nat) % 4 = 0 ∧ (8 : Nat) % 4 = 0) ∧
    ((∃ ev c2, create_ec_add_event toyCurve toyCtx 0 8 = some (ev, c2) ∧
      ev.p = sliceUnsafe toyCtx 0 toyCurve.numWords ∧
      ev.p = (spanAddrs 0 toyCurve.numWords).map toyCtx.memory ∧
      ev.q_memory_records = readRecordsOf toyCtx.memory toyCtx.clk
        (spanAddrs 8 toyCurve.numWords) ∧
      ev.local_mem_access =
        (readEntriesOf toyCtx.memory toyCtx.clk (spanAddrs 8 toyCurve.numWords)).map
          Prod.snd ++
        (writeEntriesOf toyCtx.memory (toyCtx.clk + 1)
          ((spanAddrs 0 toyCurve.numWords).zip
            (addResultWords toyCurve toyCtx.memory 0 8))).map Prod.snd) ∧
    (∃ ev c2, create_ec_double_event toyCurve toyCtx 0 0 = some (ev, c2) ∧
      ev.p = sliceUnsafe toyCtx 0 toyCurve.numWords ∧
      ev.local_mem_access = (writeEntriesOf toyCtx.memory toyCtx.clk
        ((spanAddrs 0 toyCurve.numWords).zip
          (doubleResultWords toyCurve toyCtx.memory 0))).map Prod.snd)) :=
  ⟨⟨by decide, by decide⟩,
   c10_unrecorded_preimage_read toyCurve toyCtx 0 8 0 0 (by decide) (by decide) (by decide)
     (by decide)⟩

/-- C8: Stale-entry forwarding order: in every constructor call, the global
trace's forwarded list is extended exactly by the entries pending in the
ambient log for the touched spans as they stood before this call's own
recorded accesses (the `staleOf` of the pre-phase log), so a pre-existing
entry is never attributed to this call's event; the event's own list consists
exactly of the fresh entries, for the add constructor the Q-span entries
followed by the P-span entries. -/
theorem c8_stale_forwarding_order (E : EllipticCurve) (c : SyscallContext)
    (pp qq dd d2 sp sb : Nat) (hp : pp % 4 = 0) (hq : qq % 4 = 0) (hd : dd % 4 = 0)
    (hs : sp % 4 = 0) (hsb : sb ≤ 1) (hb : 2 * E.numLimbs ≤ M32) :
    (∃ ev c2, create_ec_add_event E c pp qq = some (ev, c2) ∧
      c2.rt.record.local_memory_access = c.rt.record.local_memory_access ++
        staleOf (spanAddrs qq E.numWords) c.rt.local_memory_access ++
        staleOf (spanAddrs pp E.numWords)
          (eraseKeys (spanAddrs qq E.numWords) c.rt.local_memory_access) ∧
      ev.local_mem_access =
        (readEntriesOf c.memory c.clk (spanAddrs qq E.numWords)).map Prod.snd ++
        (writeEntriesOf c.memory (c.clk + 1)
          ((spanAddrs pp E.numWords).zip (addResultWords E c.memory pp qq))).map
          Prod.snd ∧
      ((readEntriesOf c.memory c.clk (spanAddrs qq E.numWords)).map Prod.snd).map
        MemoryLocalEvent.addr = spanAddrs qq E.numWords ∧
      (((writeEntriesOf c.memory (c.clk + 1)
          ((spanAddrs pp E.numWords).zip (addResultWords E c.memory pp qq))).map
          Prod.snd).map MemoryLocalEvent.addr) = spanAddrs pp E.numWords) ∧
    (∃ ev c2, create_ec_double_event E c dd d2 = some (ev, c2) ∧
      c2.rt.record.local_memory_access = c.rt.record.local_memory_access ++
        staleOf (spanAddrs dd E.numWords) c.rt.local_memory_access ∧
      ev.local_mem_access = (writeEntriesOf c.memory c.clk
        ((spanAddrs dd E.numWords).zip (doubleResultWords E c.memory dd))).map Prod.snd) ∧
    (∃ ev c2, create_ec_decompress_event E c sp sb = some (ev, c2) ∧
      c2.rt.record.local_memory_access = c.rt.record.local_memory_access ++
        staleOf (spanAddrs (sp + E.numLimbs) E.numWordsFieldElement)
          c.rt.local_memory_access ++
        staleOf (spanAddrs sp E.numWordsFieldElement)
          (eraseKeys (spanAddrs (sp + E.numLimbs) E.numWordsFieldElement)
            c.rt.local_memory_access) ∧
      ev.local_mem_access =
        (readEntriesOf c.memory c.clk
          (spanAddrs (sp + E.numLimbs) E.numWordsFieldElement)).map Prod.snd ++
        (writeEntriesOf c.memory c.clk
          ((spanAddrs sp E.numWordsFieldElement).zip
            (decompYWords E c.memory sp sb))).map Prod.snd) := by
  have hlenA : (addResultWords E c.memory pp qq).length = E.numWords := by
    rw [addResultWords, toWordsLE_length]
    rfl
  refine ⟨⟨_, _, create_ec_add_event_spec E c pp qq hp hq hb, rfl, rfl,
      readEntriesOf_snd_addrs _ _ _, ?_⟩,
    ⟨_, _, create_ec_double_event_spec E c dd d2 hd hb, rfl, rfl⟩,
    ⟨_, _, create_ec_decompress_event_spec E c sp sb hs hsb hb, rfl, rfl⟩⟩
  rw [writeEntriesOf_snd_addrs, List.map_fst_zip]
  rw [spanAddrs_length]
  omega

/-- Witness for C8 at concrete aligned calls. -/
theorem c8_stale_forwarding_order_witness :
    ((0 : Nat) % 4 = 0 ∧ (8 : Nat) % 4 = 0) ∧
    (∃ ev c2, create_ec_add_event toyCurve toyCtx 0 8 = some (ev, c2) ∧
      c2.rt.record.local_memory_access = toyCtx.rt.record.local_memory_access ++
        staleOf (spanAddrs 8 toyCurve.numWords) toyCtx.rt.local_memory_access ++
        staleOf (spanAddrs 0 toyCurve.numWords)
          (eraseKeys (spanAddrs 8 toyCurve.numWords) toyCtx.rt.local_memory_access) ∧
      ev.local_mem_access =
        (readEntriesOf toyCtx.memory toyCtx.clk (spanAddrs 8 toyCurve.numWords)).map
          Prod.snd ++
        (writeEntriesOf toyCtx.memory (toyCtx.clk + 1)
          ((spanAddrs 0 toyCurve.numWords).zip
            (addResultWords toyCurve toyCtx.memory 0 8))).map Prod.snd ∧
      ((readEntriesOf toyCtx.memory toyCtx.clk (spanAddrs 8 toyCurve.numWords)).map
        Prod.snd).map MemoryLocalEvent.addr = spanAddrs 8 toyCurve.numWords ∧
      (((writeEntriesOf toyCtx.memory (toyCtx.clk + 1)
          ((spanAddrs 0 toyCurve.numWords).zip
            (addResultWords toyCurve toyCtx.memory 0 8))).map Prod.snd).map
          MemoryLocalEvent.addr) = spanAddrs 0 toyCurve.numWords) :=
  ⟨⟨by decide, by decide⟩,
   (c8_stale_forwarding_order toyCurve toyCtx 0 8 0 0 0 1 (by decide) (by decide)
     (by decide) (by decide) (by decide) (by decide)).1⟩

/-- The x span and the y span of a decompress call never share an address. -/
theorem decompress_spans_disjoint (E : EllipticCurve) (sp : Nat)
    (hb : 2 * E.numLimbs ≤ M32) :
    ∀ a ∈ spanAddrs (sp + E.numLimbs) E.numWordsFieldElement,
      a ∉ spanAddrs sp E.numWordsFieldElement := by
  intro a ha hay
  simp only [spanAddrs, List.mem_map, List.mem_range] at ha hay
  obtain ⟨i, hi, rfl⟩ := ha
  obtain ⟨j, hj, heq⟩ := hay
  unfold EllipticCurve.numWordsFieldElement at hi hj
  simp only [M32] at heq hb
  omega

/-- C1 counterexample: at the aliased concrete add call with both pointers 0 on
the toy curve, two local-access entries are produced for the touched address 0
(one by the Q read phase and one by the P write phase), both ending up in the
event's list while the global trace receives none, so the claim that exactly
one entry is produced per touched address, including the aliased case, is
false. -/
theorem c1_aliased_two_entries_cex :
    (create_ec_add_event toyCurve toyCtx 0 0).map
      (fun r => (r.1.local_mem_access.countP (fun e => e.addr == 0),
        r.2.rt.record.local_memory_access.length)) = some (2, 0) := by
  decide

/-- C1 amended: for every constructor call meeting its preconditions and whose
touched spans do not overlap (automatic for double and decompress; requiring
disjoint P and Q spans for add), exactly one local-access entry is produced per
touched address and it ends up in the event's own list; the global trace's
forwarded list receives exactly the entries that were already pending before
the call. In the aliased add case a shared address instead receives one
read-phase and one write-phase entry, both in the event's list. -/
theorem c1_local_access_exactly_once (E : EllipticCurve) (c : SyscallContext)
    (pp qq dd d2 sp sb : Nat) (hp : pp % 4 = 0) (hq : qq % 4 = 0) (hd : dd % 4 = 0)
    (hs : sp % 4 = 0) (hsb : sb ≤ 1) (hb : 2 * E.numLimbs ≤ M32)
    (hdisj : ∀ a ∈ spanAddrs qq E.numWords, a ∉ spanAddrs pp E.numWords) :
    (∃ ev c2, create_ec_add_event E c pp qq = some (ev, c2) ∧
      (∀ a, a ∈ spanAddrs qq E.numWords ∨ a ∈ spanAddrs pp E.numWords →
        ev.local_mem_access.countP (fun e => e.addr == a) = 1) ∧
      c2.rt.record.local_memory_access = c.rt.record.local_memory_access ++
        staleOf (spanAddrs qq E.numWords) c.rt.local_memory_access ++
        staleOf (spanAddrs pp E.numWords)
          (eraseKeys (spanAddrs qq E.numWords) c.rt.local_memory_access)) ∧
    (∃ ev c2, create_ec_double_event E c dd d2 = some (ev, c2) ∧
      (∀ a ∈ spanAddrs dd E.numWords,
        ev.local_mem_access.countP (fun e => e.addr == a) = 1) ∧
      c2.rt.record.local_memory_access = c.rt.record.local_memory_access ++
        staleOf (spanAddrs dd E.numWords) c.rt.local_memory_access) ∧
    (∃ ev c2, create_ec_decompress_event E c sp sb = some (ev, c2) ∧
      (∀ a, a ∈ spanAddrs (sp + E.numLimbs) E.numWordsFieldElement ∨
          a ∈ spanAddrs sp E.numWordsFieldElement →
        ev.local_mem_access.countP (fun e => e.addr == a) = 1) ∧
      c2.rt.record.local_memory_access = c.rt.record.local_memory_access ++
        staleOf (spanAddrs (sp + E.numLimbs) E.numWordsFieldElement)
          c.rt.local_memory_access ++
        staleOf (spanAddrs sp E.numWordsFieldElement)
          (eraseKeys (spanAddrs (sp + E.numLimbs) E.numWordsFieldElement)
            c.rt.local_memory_access)) := by
  have hw := numWords_span_bound E hb
  have hwf := numWordsFieldElement_span_bound E hb
  have hndq := spanAddrs_nodup qq E.numWords hw
  have hndp := spanAddrs_nodup pp E.numWords hw
  have hndd := spanAddrs_nodup dd E.numWords hw
  have hndx := spanAddrs_nodup (sp + E.numLimbs) E.numWordsFieldElement hwf
  have hndy := spanAddrs_nodup sp E.numWordsFieldElement hwf
  have hlenA : (addResultWords E c.memory pp qq).length = E.numWords := by
    rw [addResultWords, toWordsLE_length]
    rfl
  have hlenD : (doubleResultWords E c.memory dd).length = E.numWords := by
    rw [doubleResultWords, toWordsLE_length]
    rfl
  have hkeyP : (((writeEntriesOf c.memory (c.clk + 1)
      ((spanAddrs pp E.numWords).zip (addResultWords E c.memory pp qq))).map
      Prod.snd).map MemoryLocalEvent.addr) = spanAddrs pp E.numWords := by
    rw [writeEntriesOf_snd_addrs, List.map_fst_zip]
    rw [spanAddrs_length]
    omega
  have hkeyD : (((writeEntriesOf c.memory c.clk
      ((spanAddrs dd E.numWords).zip (doubleResultWords E c.memory dd))).map
      Prod.snd).map MemoryLocalEvent.addr) = spanAddrs dd E.numWords := by
    rw [writeEntriesOf_snd_addrs, List.map_fst_zip]
    rw [spanAddrs_length]
    omega
  have hkeyY : (((writeEntriesOf c.memory c.clk
      ((spanAddrs sp E.numWordsFieldElement).zip
        (decompYWords E c.memory sp sb))).map Prod.snd).map MemoryLocalEvent.addr) =
      spanAddrs sp E.numWordsFieldElement := by
    rw [writeEntriesOf_snd_addrs, List.map_fst_zip]
    rw [spanAddrs_length, decompYWords_length]
  refine ⟨⟨_, _, create_ec_add_event_spec E c pp qq hp hq hb, ?_, rfl⟩,
    ⟨_, _, create_ec_double_event_spec E c dd d2 hd hb, ?_, rfl⟩,
    ⟨_, _, create_ec_decompress_event_spec E c sp sb hs hsb hb, ?_, rfl⟩⟩
  · intro a ha
    simp only [addSpecEvent]
    rw [List.countP_append]
    rw [countP_addr_of_keys _ _ _ (readEntriesOf_snd_addrs _ _ _) hndq]
    rw [countP_addr_of_keys _ _ _ hkeyP hndp]
    rcases ha with ha | ha
    · simp [ha, hdisj a ha]
    · have hnq : a ∉ spanAddrs qq E.numWords := fun h => hdisj a h ha
      simp [ha, hnq]
  · intro a ha
    simp only [doubleSpecEvent]
    rw [countP_addr_of_keys _ _ _ hkeyD hndd]
    simp [ha]
  · intro a ha
    simp only [decompSpecEvent]
    rw [List.countP_append]
    rw [countP_addr_of_keys _ _ _ (readEntriesOf_snd_addrs _ _ _) hndx]
    rw [countP_addr_of_keys _ _ _ hkeyY hndy]
    rcases ha with ha | ha
    · simp [ha, decompress_spans_disjoint E sp hb a ha]
    · have hnx : a ∉ spanAddrs (sp + E.numLimbs) E.numWordsFieldElement :=
        fun h => decompress_spans_disjoint E sp hb a h ha
      simp [ha, hnx]

/-- Witness for the amended C1 at concrete aligned calls with disjoint spans. -/
theorem c1_local_access_exactly_once_witness :
    ((0 : Nat) % 4 = 0 ∧ (8 : Nat) % 4 = 0 ∧
      (∀ a ∈ spanAddrs 8 toyCurve.numWords, a ∉ spanAddrs 0 toyCurve.numWords)) ∧
    ((∃ ev c2, create_ec_add_event toyCurve toyCtx 0 8 = some (ev, c2) ∧
      (∀ a, a ∈ spanAddrs 8 toyCurve.numWords ∨ a ∈ spanAddrs 0 toyCurve.numWords →
        ev.local_mem_access.countP (fun e => e.addr == a) = 1) ∧
      c2.rt.record.local_memory_access = toyCtx.rt.record.local_memory_access ++
        staleOf (spanAddrs 8 toyCurve.numWords) toyCtx.rt.local_memory_access ++
        staleOf (spanAddrs 0 toyCurve.numWords)
          (eraseKeys (spanAddrs 8 toyCurve.numWords) toyCtx.rt.local_memory_access)) ∧
    (∃ ev c2, create_ec_double_event toyCurve toyCtx 0 8 = some (ev, c2) ∧
      (∀ a ∈ spanAddrs 0 toyCurve.numWords,
        ev.local_mem_access.countP (fun e => e.addr == a) = 1) ∧
      c2.rt.record.local_memory_access = toyCtx.rt.record.local_memory_access ++
        staleOf (spanAddrs 0 toyCurve.numWords) toyCtx.rt.local_memory_access) ∧
    (∃ ev c2, create_ec_decompress_event toyCurve toyCtx 0 1 = some (ev, c2) ∧
      (∀ a, a ∈ spanAddrs (0 + toyCurve.numLimbs) toyCurve.numWordsFieldElement ∨
          a ∈ spanAddrs 0 toyCurve.numWordsFieldElement →
        ev.local_mem_access.countP (fun e => e.addr == a) = 1) ∧
      c2.rt.record.local_memory_access = toyCtx.rt.record.local_memory_access ++
        staleOf (spanAddrs (0 + toyCurve.numLimbs) toyCurve.numWordsFieldElement)
          toyCtx.rt.local_memory_access ++
        staleOf (spanAddrs 0 toyCurve.numWordsFieldElement)
          (eraseKeys (spanAddrs (0 + toyCurve.numLimbs) toyCurve.numWordsFieldElement)
            toyCtx.rt.local_memory_access))) :=
  ⟨⟨by decide, by decide, by decide⟩,
   c1_local_access_exactly_once toyCurve toyCtx 0 8 0 8 0 1 (by decide) (by decide)
     (by decide) (by decide) (by decide) (by decide) (by decide)⟩

end SP1
